import Mathlib

/-
Verification development for the simple-workflow-js task orchestration
engine (source files: src/flow-manager.ts, src/task.ts, src/models/*).

The embedding below translates the data model and the operations of the
source into Lean:

* Task / TaskOptions / FlowManagerOptions / FlowManager mirror the
  classes and interfaces of task.ts, models/ and flow-manager.ts.
* An executor function is modelled by its observable behaviour during a
  run: a duration (in milliseconds, 0 meaning the executor completes
  synchronously) and a result (a value, or a rejection carrying a
  message).  The executors relevant to the claims do not read the
  shared context, so the model takes the behaviour as data.
* FlowManager.run (flow-manager.ts lines 72-148) is modelled by three
  phases that follow the code: a synchronous validation call, a
  dispatch pass over the task list that builds the promise map exactly
  as the forEach callback does (including the overwrite of
  taskProm[task.id] with undefined on line 101), and a settlement
  phase that computes each promise outcome, the context writes of
  line 125, and the Promise.allSettled aggregation of lines 134-146.
* detectCircularDependencys (lines 154-195) is translated literally,
  with the shared mutable visited/recStack sets passed as explicit
  state and a fuel parameter standing for the call stack; the fuel
  used by the model (length of the task list plus one) is proved
  sufficient below.
* The tail of the file models the context store entry freeze of lines
  125-126 (Object.freeze on the entry value, while the context object
  itself stays writable).

Timing granularity of the model: the forEach dispatch cascade (all
executor invocations) happens before any timer-driven completion, so
the event trace places every invocation before the write of any task
whose duration is positive; the relative order of writes of
zero-duration tasks within the cascade is not relied upon by any
theorem.  A task times out exactly when its duration exceeds the
configured timeout (the rejection of the timer on line 86 wins the
race); when the executor settles within the timeout the timer is
cleared on line 121.
-/

deriving instance DecidableEq for Except

namespace Workflow

/-- Observable behaviour of an executor function during one run:
how long it takes to settle and whether it resolves with a value or
rejects with an error message (models/TaskOptions.ts executor field). -/
structure ExecSpec where
  duration : Nat
  result : Except String Nat
deriving DecidableEq, Repr

/-- TaskOptions of models/TaskOptions.ts: an optional dependency list
(deps may be absent, which the code distinguishes from an empty list
via JS truthiness) and the executor. -/
structure TaskOptions where
  deps : Option (List String)
  executor : ExecSpec
deriving DecidableEq, Repr

/-- Task of task.ts: an id together with its options. -/
structure Task where
  id : String
  options : TaskOptions
deriving DecidableEq, Repr

/-- FlowManagerOptions of models/FlowManagerOptions.ts: both fields
optional; a missing field is `none`. -/
structure FlowManagerOptions where
  timeout : Option Nat
  debug : Option Bool
deriving DecidableEq, Repr

/-- The Required version of the options held by a FlowManager. -/
structure ResolvedOptions where
  timeout : Nat
  debug : Bool
deriving DecidableEq, Repr

/-- DEFAULT_FLOW_MANAGER_OPTIONS (flow-manager.ts lines 10-13). -/
def DEFAULT_FLOW_MANAGER_OPTIONS : ResolvedOptions :=
  ⟨30000, false⟩

/-- Object spread { ...DEFAULT_FLOW_MANAGER_OPTIONS, ...options }
(lines 39-42): a field present in the caller options overrides the
default, an absent field keeps the default. -/
def mergeOptions (o : FlowManagerOptions) : ResolvedOptions :=
  ⟨o.timeout.getD DEFAULT_FLOW_MANAGER_OPTIONS.timeout,
   o.debug.getD DEFAULT_FLOW_MANAGER_OPTIONS.debug⟩

/-- FlowManager (flow-manager.ts lines 18-43). -/
structure FlowManager where
  id : String
  taskList : List Task
  options : ResolvedOptions
deriving DecidableEq, Repr

/-- Constructor of FlowManager (lines 37-43); the options argument is
optional and defaults to the empty object. -/
def mkFlowManager (id : String) (options : Option FlowManagerOptions) : FlowManager :=
  ⟨id, [], mergeOptions (options.getD ⟨none, none⟩)⟩

/-- addTask (lines 55-64).  The polymorphic first argument is a Task
instance or a string; the second argument is the optional taskOptions.
The string-and-options branch of line 56 is checked first, then the
instanceof branch of line 58; otherwise the method throws. -/
def addTask (fm : FlowManager) (task : Sum Task String)
    (taskOptions : Option TaskOptions) : Except String FlowManager :=
  match task, taskOptions with
  | .inr s, some opts =>
    .ok ⟨fm.id, fm.taskList ++ [Task.mk s opts], fm.options⟩
  | .inl t, _ =>
    .ok ⟨fm.id, fm.taskList ++ [t], fm.options⟩
  | .inr _, none =>
    .error "Invalid task or missing task options"

/-! Dependency graph validation (detectCircularDependencys,
flow-manager.ts lines 154-195). -/

/-- Errors thrown by detectCircularDependencys.  `fuelExhausted` is an
artifact of the fueled model of the recursion and is proved
unreachable for the fuel the model uses. -/
inductive FlowError where
  | unknownDep (dep taskId : String)
  | circular (taskId : String)
  | fuelExhausted
deriving DecidableEq, Repr

/-- Lookup map from task id to task built on lines 158-161: Map.set in
list order, so a later task with the same id overwrites an earlier
one. -/
def buildMap (ts : List Task) : String → Option Task :=
  ts.foldl (fun acc t => fun x => if x = t.id then some t else acc x) (fun _ => none)

/-- Declared dependencies of the task registered under a name (the
list traversed on line 170); absent deps and an absent task both give
the empty list. -/
def depsOf (tm : String → Option Task) (a : String) : List String :=
  match tm a with
  | some t => t.options.deps.getD []
  | none => []

/-- Edge of the dependency graph: the task registered under `a`
declares a dependency on `b`. -/
def edgeP (tm : String → Option Task) (a b : String) : Prop :=
  b ∈ depsOf tm a

instance (tm : String → Option Task) (a b : String) : Decidable (edgeP tm a b) := by
  unfold edgeP
  infer_instance

/-- The dependency relation of a task list has no directed cycle. -/
def Acyclic (ts : List Task) : Prop :=
  ∀ a, ¬ Relation.TransGen (edgeP (buildMap ts)) a a

/-- Every declared dependency of every task resolves to a registered
task (spec: fully-resolvable dependencies). -/
def Resolvable (ts : List Task) : Prop :=
  ∀ t ∈ ts, ∀ d ∈ depsOf (buildMap ts) t.id, (buildMap ts d).isSome = true

instance (ts : List Task) : Decidable (Resolvable ts) := by
  unfold Resolvable; infer_instance

/-- The mutable visited / recStack sets of lines 155-156, threaded as
explicit state. -/
structure DfsState where
  visited : List String
  recStack : List String
deriving DecidableEq, Repr

/-- The for-loop over task.options.deps (lines 170-181), parameterized
by the hasCycle closure it calls back into (the JS closure refers to
itself through the enclosing scope).  The membership check of line 171
throws UnknownDependency; then `if (not visited(dep) and
hasCycle(dep)) return true; else if (recStack has dep) return
true`. -/
def depsLoopF (tm : String → Option Task)
    (hc : String → DfsState → Except FlowError (Bool × DfsState))
    (taskId : String) : List String → DfsState → Except FlowError (Bool × DfsState)
  | [], st => .ok (false, st)
  | dep :: rest, st =>
    if (tm dep).isNone then
      .error (.unknownDep dep taskId)
    else
      if dep ∈ st.visited then
        if dep ∈ st.recStack then .ok (true, st)
        else depsLoopF tm hc taskId rest st
      else
        match hc dep st with
        | .error e => .error e
        | .ok (true, st2) => .ok (true, st2)
        | .ok (false, st2) =>
          if dep ∈ st2.recStack then .ok (true, st2)
          else depsLoopF tm hc taskId rest st2

/-- hasCycle (lines 163-186), fueled (the fuel stands for the call
stack and is proved sufficient below).  The visited and recStack sets
are threaded through; the boolean is the return value of the JS
closure; recStack.delete(taskId) of line 184 runs on every path that
reaches the end of the closure body (it is skipped by the early
`return true` inside the dependency loop). -/
def hasCycle (tm : String → Option Task) :
    Nat → String → DfsState → Except FlowError (Bool × DfsState)
  | 0, _, _ => .error .fuelExhausted
  | fuel + 1, taskId, st =>
    if taskId ∈ st.visited then
      .ok (false, ⟨st.visited, st.recStack.erase taskId⟩)
    else
      match tm taskId with
      | none =>
        .ok (false, ⟨taskId :: st.visited, (taskId :: st.recStack).erase taskId⟩)
      | some task =>
        match task.options.deps with
        | none =>
          .ok (false, ⟨taskId :: st.visited, (taskId :: st.recStack).erase taskId⟩)
        | some ds =>
          match depsLoopF tm (hasCycle tm fuel) taskId ds
              ⟨taskId :: st.visited, taskId :: st.recStack⟩ with
          | .error e => .error e
          | .ok (true, st2) => .ok (true, st2)
          | .ok (false, st2) => .ok (false, ⟨st2.visited, st2.recStack.erase taskId⟩)

/-- The top-level loop of lines 188-194, returning the final DFS state
(the JS closure keeps it in the enclosing scope). -/
def detectGo (tm : String → Option Task) (fuel : Nat) :
    List Task → DfsState → Except FlowError DfsState
  | [], st => .ok st
  | t :: rest, st =>
    match hasCycle tm fuel t.id st with
    | .error e => .error e
    | .ok (true, _) => .error (.circular t.id)
    | .ok (false, st2) => detectGo tm fuel rest st2

/-- detectCircularDependencys (lines 154-195).  The fuel used, one
more than the number of tasks, is proved sufficient below. -/
def detectCircularDependencys (ts : List Task) : Except FlowError Unit :=
  match detectGo (buildMap ts) (ts.length + 1) ts ⟨[], []⟩ with
  | .error e => .error e
  | .ok _ => .ok ()

/-! The run method (flow-manager.ts lines 72-148). -/

/-- Insertion-ordered association list standing for a plain JS object
used as a map. -/
def alLookup {α : Type} : List (String × α) → String → Option α
  | [], _ => none
  | (k2, v) :: rest, k => if k2 = k then some v else alLookup rest k

/-- Assignment obj[k] = v on a plain JS object: an existing key keeps
its position, a new key is appended. -/
def alSet {α : Type} : List (String × α) → String → α → List (String × α)
  | [], k, v => [(k, v)]
  | (k2, v2) :: rest, k, v =>
    if k2 = k then (k, v) :: rest else (k2, v2) :: alSet rest k v

/-- The taskProm object of line 75: a key maps to `some i` (the
promise of the task at index i of the task list) or to `none` (the
entry was overwritten with undefined on line 101). -/
abbrev PromMap : Type := List (String × Option Nat)

/-- JS truthiness of the read taskProm[dep] on line 98: an absent key
reads as undefined, and an entry holding undefined is falsy too. -/
def jsFalsy : Option (Option Nat) → Bool
  | none => true
  | some none => true
  | some (some _) => false

/-- The dependency for-loop of lines 97-103: for each dep, read
taskProm[dep]; when the value is falsy (the `if (not depTask)` test of
line 99), execute line 101: taskProm[task.id] = depTask, that is,
overwrite the own entry with undefined.  depsPromArray is never pushed
to, so the subsequent await of line 104 wakes immediately. -/
def depsScan (taskId : String) : List String → PromMap → PromMap
  | [], pm => pm
  | dep :: rest, pm =>
    if jsFalsy (alLookup pm dep) then depsScan taskId rest (alSet pm taskId none)
    else depsScan taskId rest pm

/-- One iteration of the forEach callback of lines 81-131 up to the
first await: store the fresh promise under the task id (line 90), then
run the dependency scan when deps is truthy (line 95). -/
def dispatchStep (i : Nat) (t : Task) (pm : PromMap) : PromMap :=
  match t.options.deps with
  | none => alSet pm t.id (some i)
  | some ds => depsScan t.id ds (alSet pm t.id (some i))

/-- The forEach dispatch pass of line 81 over the task list, in
registration order. -/
def dispatchGo : List Task → Nat → PromMap → PromMap
  | [], _, pm => pm
  | t :: rest, i, pm => dispatchGo rest (i + 1) (dispatchStep i t pm)

/-- The promise map as it stands when run reaches line 134. -/
def dispatch (ts : List Task) : PromMap :=
  dispatchGo ts 0 []

/-- Rejection reasons produced by the run: the timeout rejection of
line 86 and the executor-failure rejection of lines 116-118. -/
inductive Reason where
  | failed (taskId msg : String)
  | timedOut (taskId : String)
deriving DecidableEq, Repr

/-- Settlement of one promise, as Promise.allSettled reports it. -/
inductive Outcome where
  | fulfilled (v : Option Nat)
  | rejected (r : Reason)
deriving DecidableEq, Repr

/-- How the promise of a task settles: when the executor takes longer
than the timeout, the timer of lines 85-87 rejects first; otherwise
the timer is cleared (line 121) and the promise follows the executor
(reject on line 116 wrapping the message, resolve on line 130). -/
def outcomeOf (timeout : Nat) (t : Task) : Outcome :=
  if timeout < t.options.executor.duration then
    .rejected (.timedOut t.id)
  else
    match t.options.executor.result with
    | .error msg => .rejected (.failed t.id msg)
    | .ok v => .fulfilled (some v)

/-- The context entry written on line 125: the executor result on
success, and undefined (the response variable was never assigned) when
the executor rejected. -/
def entryOf (t : Task) : Option Nat :=
  match t.options.executor.result with
  | .ok v => some v
  | .error _ => none

/-- The shared context object: task name to entry, where an entry may
itself be undefined. -/
abbrev Ctx : Type := List (String × Option Nat)

/-- All context writes of line 125 applied; every task writes its own
key exactly once, so for task lists with distinct ids the resulting
map does not depend on the order of application and the model applies
the writes in registration order. -/
def finalContext (init : Ctx) (ts : List Task) : Ctx :=
  ts.foldl (fun c t => alSet c t.id (entryOf t)) init

/-- Promise.allSettled(Object.values(taskProm)) of line 134: the
values are taken in key insertion order; an entry overwritten with
undefined is not a promise and is reported as fulfilled. -/
def retList (timeout : Nat) (ts : List Task) (pm : PromMap) : List Outcome :=
  pm.map (fun e =>
    match e.2 with
    | none => .fulfilled none
    | some i =>
      match ts[i]? with
      | some t => outcomeOf timeout t
      | none => .fulfilled none)

def isFulfilled : Outcome → Bool
  | .fulfilled _ => true
  | .rejected _ => false

def reasonOf : Outcome → Option Reason
  | .rejected r => some r
  | .fulfilled _ => none

/-- The two failure channels of run: the synchronous validation throw
of line 79 and the aggregate throw of line 145. -/
inductive RunError where
  | validation (e : FlowError)
  | flowFailed (reasons : List Reason)
deriving DecidableEq, Repr

/-- run (lines 72-148): validate, dispatch, settle every promise of
the map, and either return the context or throw the aggregate error
listing every rejection reason. -/
def run (fm : FlowManager) (initialContext : Ctx) : Except RunError Ctx :=
  match detectCircularDependencys fm.taskList with
  | .error e => .error (.validation e)
  | .ok _ =>
    let pm := dispatch fm.taskList
    let ret := retList fm.options.timeout fm.taskList pm
    if ret.all isFulfilled then
      .ok (finalContext initialContext fm.taskList)
    else
      .error (.flowFailed (ret.filterMap reasonOf))

/-! Event trace of a run, for the invocation-ordering claims. -/

inductive Event where
  | invoke (taskId : String)
  | write (taskId : String) (v : Option Nat)
deriving DecidableEq, Repr

/-- Stable insertion sort by executor duration, once the completion
order of the tasks. -/
def insertByDuration (t : Task) : List Task → List Task
  | [] => [t]
  | u :: rest =>
    if u.options.executor.duration < t.options.executor.duration then
      u :: insertByDuration t rest
    else
      t :: u :: rest

def sortByDuration : List Task → List Task
  | [] => []
  | t :: rest => insertByDuration t (sortByDuration rest)

/-- Observable event order of one run.  When validation throws no
executor is invoked.  Otherwise the forEach cascade invokes every
executor: a task whose deps field is absent calls task.exec directly
(line 113 reached synchronously), a task with a deps field reaches it
after the immediately-resolved await of line 104; every completion
(context write of line 125) of a task with positive duration happens
after the whole cascade, in duration order. -/
def runTrace (fm : FlowManager) : List Event :=
  match detectCircularDependencys fm.taskList with
  | .error _ => []
  | .ok _ =>
    (fm.taskList.filter (fun t => t.options.deps.isNone)).map (fun t => .invoke t.id)
      ++ (fm.taskList.filter (fun t => t.options.deps.isSome)).map (fun t => .invoke t.id)
      ++ (sortByDuration fm.taskList).map (fun t => .write t.id (entryOf t))

/-- Index of the invocation of a task in a trace. -/
def invokePos (tr : List Event) (taskId : String) : Option Nat :=
  tr.findIdx? (fun e => e = .invoke taskId)

/-- Index of the context write of a task in a trace. -/
def writePos (tr : List Event) (taskId : String) : Option Nat :=
  tr.findIdx? (fun e =>
    match e with
    | .write s _ => s = taskId
    | _ => false)

/-- The gating property the specification asserts: every executor
invocation happens after the context writes of all declared
dependencies of the task. -/
def gatedOnDeps (fm : FlowManager) : Prop :=
  ∀ t ∈ fm.taskList, ∀ d ∈ t.options.deps.getD [],
    ∀ i ∈ (invokePos (runTrace fm) t.id), ∀ j ∈ (writePos (runTrace fm) d), j < i

instance (fm : FlowManager) : Decidable (gatedOnDeps fm) := by
  unfold gatedOnDeps; infer_instance

/-! Context store entry freeze (lines 124-126): entries are objects;
Object.freeze marks the entry object immutable, but the context object
itself stays writable. -/

/-- A JS object value stored in the context: named numeric fields plus
the frozen mark set by Object.freeze. -/
structure JsObj where
  fields : List (String × Nat)
  frozen : Bool
deriving DecidableEq, Repr

/-- Context with object-valued entries, for the immutability claims. -/
abbrev ObjCtx : Type := List (String × JsObj)

/-- Lines 125-126: context[task.id] = response; Object.freeze(context[task.id]). -/
def writeTaskResult (ctx : ObjCtx) (taskId : String) (o : JsObj) : ObjCtx :=
  alSet ctx taskId ⟨o.fields, true⟩

/-- An executor statement context[k].f = v: assigning to a property of
a frozen object throws a TypeError in strict mode (the module is
strict), and accessing a property of an absent entry also throws;
otherwise the property is updated in place. -/
def setField (ctx : ObjCtx) (k f : String) (v : Nat) : Except String ObjCtx :=
  match alLookup ctx k with
  | none => .error "TypeError: cannot read properties of undefined"
  | some o =>
    if o.frozen then .error "TypeError: cannot assign to read-only property"
    else .ok (alSet ctx k ⟨alSet o.fields f v, o.frozen⟩)

/-- An executor statement context[k] = o: a plain assignment on the
context object, which is never frozen, so it always succeeds and
replaces the entry. -/
def replaceEntry (ctx : ObjCtx) (k : String) (o : JsObj) : ObjCtx :=
  alSet ctx k o

/-! Auxiliary notions for the correctness proof of
detectCircularDependencys. -/

/-- Well-formedness of the DFS state: the recursion stack is a subset
of the visited set (line 166 adds a task to both together). -/
def dfsWF (st : DfsState) : Prop :=
  ∀ x ∈ st.recStack, x ∈ st.visited

/-- Evidence carried by an unknown-dependency error: the dependency is
really unregistered and really declared by the named registered
task. -/
def errUnknown (tm : String → Option Task) : FlowError → Prop
  | .unknownDep d tid =>
    tm d = none ∧ ∃ task, tm tid = some task ∧ d ∈ task.options.deps.getD []
  | _ => False

/-- Number of names of a support list not yet visited; the fuel
argument of hasCycle is measured against it. -/
def freeCount (K visited : List String) : Nat :=
  (K.filter (fun x => decide (x ∉ visited))).length

/-- The recursion stack read newest-first is a path in the dependency
graph: each element declares a dependency on the one pushed after
it. -/
def stackChain (tm : String → Option Task) : List String → Prop
  | [] => True
  | [_] => True
  | x :: y :: rest => edgeP tm y x ∧ stackChain tm (y :: rest)

/-- A finished (black) node of the traversal: all its declared
dependencies are registered and no cycle is reachable from it. -/
def blackP (tm : String → Option Task) (v : String) : Prop :=
  (∀ d ∈ depsOf tm v, (tm d).isSome = true) ∧
  ∀ c, Relation.ReflTransGen (edgeP tm) v c → ¬ Relation.TransGen (edgeP tm) c c

/-- Invariant of the traversal: every visited node off the recursion
stack is black. -/
def dfsInvB (tm : String → Option Task) (st : DfsState) : Prop :=
  ∀ v ∈ st.visited, v ∉ st.recStack → blackP tm v

/-- Conclusions of the basic bookkeeping lemma for one hasCycle call:
the visited set only grows, well-formedness is preserved, a false
return restores the recursion stack, and an error is either the fuel
artifact (with the fuel bounded by the unvisited count) or a justified
unknown-dependency error. -/
def hcBasicP (tm : String → Option Task) (K : List String) (fuel : Nat)
    (taskId : String) (st : DfsState) : Prop :=
  (∀ b st2, hasCycle tm fuel taskId st = .ok (b, st2) →
    (∀ x ∈ st.visited, x ∈ st2.visited) ∧
    (dfsWF st → dfsWF st2 ∧
      (taskId ∉ st.recStack → b = false →
        st2.recStack = st.recStack ∧ taskId ∈ st2.visited))) ∧
  (∀ e, hasCycle tm fuel taskId st = .error e →
    (e = .fuelExhausted ∧ ((∀ x, (tm x).isSome = true → x ∈ K) →
      fuel ≤ freeCount K st.visited)) ∨ errUnknown tm e)

/-- Basic bookkeeping conclusions for one run of the dependency
loop. -/
def dlBasicP (tm : String → Option Task) (K : List String) (fuel : Nat)
    (tid : String) (deps : List String) (st : DfsState) : Prop :=
  (∀ b st2, depsLoopF tm (hasCycle tm fuel) tid deps st = .ok (b, st2) →
    (∀ x ∈ st.visited, x ∈ st2.visited) ∧
    (dfsWF st → dfsWF st2 ∧ (b = false → st2.recStack = st.recStack))) ∧
  (∀ e, depsLoopF tm (hasCycle tm fuel) tid deps st = .error e →
    (e = .fuelExhausted ∧ ((∀ x, (tm x).isSome = true → x ∈ K) →
      fuel ≤ freeCount K st.visited)) ∨ errUnknown tm e)

/-- Soundness conclusion for one hasCycle call: a true return exhibits
a cycle reachable from the bottom of the recursion stack. -/
def hcSoundP (tm : String → Option Task) (fuel : Nat)
    (taskId : String) (st : DfsState) : Prop :=
  dfsWF st → stackChain tm (taskId :: st.recStack) →
  ∀ st2, hasCycle tm fuel taskId st = .ok (true, st2) →
    ∃ c, Relation.TransGen (edgeP tm) c c ∧
      Relation.ReflTransGen (edgeP tm) (st.recStack.getLastD taskId) c

/-- Soundness conclusion for one run of the dependency loop. -/
def dlSoundP (tm : String → Option Task) (fuel : Nat)
    (tid : String) (deps : List String) (st : DfsState) : Prop :=
  dfsWF st → (∃ rs, st.recStack = tid :: rs) → stackChain tm st.recStack →
  (∃ task, tm tid = some task ∧ ∀ x ∈ deps, x ∈ task.options.deps.getD []) →
  ∀ st2, depsLoopF tm (hasCycle tm fuel) tid deps st = .ok (true, st2) →
    ∃ c, Relation.TransGen (edgeP tm) c c ∧
      Relation.ReflTransGen (edgeP tm) (st.recStack.getLastD tid) c

/-- Completeness conclusion for one hasCycle call: a false return
turns the node black and preserves the black invariant. -/
def hcCompleteP (tm : String → Option Task) (fuel : Nat)
    (taskId : String) (st : DfsState) : Prop :=
  dfsWF st → taskId ∉ st.recStack → dfsInvB tm st →
  ∀ st2, hasCycle tm fuel taskId st = .ok (false, st2) →
    dfsInvB tm st2 ∧ taskId ∈ st2.visited ∧ taskId ∉ st2.recStack

/-- Completeness conclusion for one run of the dependency loop: on a
false return every processed dependency is black and registered. -/
def dlCompleteP (tm : String → Option Task) (fuel : Nat)
    (tid : String) (deps : List String) (st : DfsState) : Prop :=
  dfsWF st → dfsInvB tm st →
  ∀ st2, depsLoopF tm (hasCycle tm fuel) tid deps st = .ok (false, st2) →
    dfsInvB tm st2 ∧
    ∀ d ∈ deps, d ∈ st2.visited ∧ d ∉ st2.recStack ∧ (tm d).isSome = true

/-! Concrete flows and small helpers used by the claims, the
counterexamples and the witnesses. -/

/-- The keys of an association list are pairwise distinct. -/
def alKeysND {α : Type} (l : List (String × α)) : Prop :=
  (l.map Prod.fst).Nodup

/-- Flow with a slow dependency: task a resolves after 1 ms, task b
declares a dependency on a and runs a synchronous executor. -/
def ceSlowDep : FlowManager :=
  ⟨"Main", [⟨"a", ⟨none, ⟨1, .ok 10⟩⟩⟩, ⟨"b", ⟨some ["a"], ⟨0, .ok 20⟩⟩⟩], ⟨30000, false⟩⟩

/-- Flow of the C2 scenario: A rejects, B depends on A, C is independent. -/
def ceFailDep : FlowManager :=
  ⟨"Main",
   [⟨"A", ⟨none, ⟨0, .error "boom"⟩⟩⟩,
    ⟨"B", ⟨some ["A"], ⟨0, .ok 1⟩⟩⟩,
    ⟨"C", ⟨none, ⟨0, .ok 2⟩⟩⟩],
   ⟨30000, false⟩⟩

/-- Flow with a single task whose executor rejects. -/
def ceSingleFail : FlowManager :=
  ⟨"Main", [⟨"A", ⟨none, ⟨0, .error "x"⟩⟩⟩], ⟨30000, false⟩⟩

/-- Flow where task T exceeds the 10 ms timeout and declares a
dependency on the later-registered task U. -/
def ceLateDepTimeout : FlowManager :=
  ⟨"Main", [⟨"T", ⟨some ["U"], ⟨50, .ok 1⟩⟩⟩, ⟨"U", ⟨none, ⟨0, .ok 2⟩⟩⟩], ⟨10, false⟩⟩

/-- Single task declaring a self-dependency together with an
unregistered dependency. -/
def ceCycleAndUnknown : List Task :=
  [⟨"a", ⟨some ["a", "missing"], ⟨0, .ok 1⟩⟩⟩]

/-- Flow where task B fails and declares a dependency on the
later-registered task A. -/
def ceLateDepFail : FlowManager :=
  ⟨"Main", [⟨"B", ⟨some ["A"], ⟨0, .error "oops"⟩⟩⟩, ⟨"A", ⟨none, ⟨0, .ok 5⟩⟩⟩], ⟨30000, false⟩⟩

/-- Flow of two independent synchronous tasks. -/
def wfIndep : FlowManager :=
  ⟨"Main", [⟨"a", ⟨none, ⟨0, .ok 1⟩⟩⟩, ⟨"b", ⟨none, ⟨0, .ok 2⟩⟩⟩], ⟨30000, false⟩⟩

/-- Sample task options used by registration examples. -/
def sampleOpts : TaskOptions := ⟨none, ⟨0, .ok 1⟩⟩

/-- Single task declaring one unregistered dependency. -/
def ceUnknownOnly : List Task :=
  [⟨"a", ⟨some ["missing"], ⟨0, .ok 1⟩⟩⟩]

/-- Two tasks depending on each other. -/
def ceCyclePair : List Task :=
  [⟨"x", ⟨some ["y"], ⟨0, .ok 1⟩⟩⟩, ⟨"y", ⟨some ["x"], ⟨0, .ok 1⟩⟩⟩]

/-- Flow wrapping the mutually-dependent pair. -/
def ceCycleFm : FlowManager :=
  ⟨"Main", ceCyclePair, ⟨30000, false⟩⟩

/-- Task a rejection reason speaks about, used to state that the
aggregate error has no entry for a given task. -/
def reasonTask : Reason → String
  | .failed tid _ => tid
  | .timedOut tid => tid

/-- Flow with a single slow task exceeding its 10 ms timeout. -/
def wfSlowSolo : FlowManager :=
  ⟨"Main", [⟨"S", ⟨none, ⟨50, .ok 1⟩⟩⟩], ⟨10, false⟩⟩

/-! Association list lemmas. -/

theorem alLookup_alSet_self {α : Type} (l : List (String × α)) (k : String) (v : α) :
    alLookup (alSet l k v) k = some v := by
  induction l with
  | nil => simp [alSet, alLookup]
  | cons e rest ih =>
    obtain ⟨k2, v2⟩ := e
    by_cases h : k2 = k
    · simp [alSet, alLookup, h]
    · simp [alSet, alLookup, h, ih]

theorem alLookup_alSet_ne {α : Type} (l : List (String × α)) (k k2 : String) (v : α)
    (h : k2 ≠ k) : alLookup (alSet l k v) k2 = alLookup l k2 := by
  induction l with
  | nil => simp [alSet, alLookup, Ne.symm h]
  | cons e rest ih =>
    obtain ⟨k3, v3⟩ := e
    by_cases h3 : k3 = k
    · subst h3
      simp [alSet, alLookup, Ne.symm h]
    · simp [alSet, alLookup, h3, ih]

theorem alLookup_mem {α : Type} (l : List (String × α)) (k : String) (v : α)
    (h : alLookup l k = some v) : (k, v) ∈ l := by
  induction l with
  | nil => simp [alLookup] at h
  | cons e rest ih =>
    obtain ⟨k2, v2⟩ := e
    by_cases h2 : k2 = k
    · subst h2
      simp [alLookup] at h
      simp [h]
    · simp [alLookup, h2] at h
      exact List.mem_cons_of_mem _ (ih h)

theorem alSet_mem {α : Type} (l : List (String × α)) (k : String) (v : α)
    (e : String × α) (h : e ∈ alSet l k v) : e = (k, v) ∨ e ∈ l := by
  induction l with
  | nil => simp [alSet] at h; simp [h]
  | cons f rest ih =>
    obtain ⟨k2, v2⟩ := f
    by_cases h2 : k2 = k
    · subst h2
      simp [alSet] at h
      rcases h with h | h
      · exact Or.inl h
      · exact Or.inr (List.mem_cons_of_mem _ h)
    · simp [alSet, h2] at h
      rcases h with h | h
      · subst h
        exact Or.inr (List.mem_cons_self _ _)
      · rcases ih h with h | h
        · exact Or.inl h
        · exact Or.inr (List.mem_cons_of_mem _ h)

theorem alSet_keys {α : Type} (l : List (String × α)) (k : String) (v : α) :
    (alSet l k v).map Prod.fst =
      if k ∈ l.map Prod.fst then l.map Prod.fst else l.map Prod.fst ++ [k] := by
  induction l with
  | nil => simp [alSet]
  | cons e rest ih =>
    obtain ⟨k2, v2⟩ := e
    by_cases h2 : k2 = k
    · subst h2
      simp [alSet]
    · have hne : k ≠ k2 := Ne.symm h2
      by_cases hm : k ∈ rest.map Prod.fst
      · simp [alSet, h2, hne, hm, ih]
      · simp [alSet, h2, hne, hm, ih]

theorem alSet_keysND {α : Type} (l : List (String × α)) (k : String) (v : α)
    (h : alKeysND l) : alKeysND (alSet l k v) := by
  unfold alKeysND at h ⊢
  rw [alSet_keys]
  by_cases hm : k ∈ l.map Prod.fst
  · simpa [hm] using h
  · rw [if_neg hm, List.nodup_append]
    refine ⟨h, List.nodup_singleton k, ?_⟩
    intro a ha hb
    simp at hb
    subst hb
    exact hm ha

theorem alMem_lookup {α : Type} (l : List (String × α)) (k : String) (v : α)
    (hnd : alKeysND l) (h : (k, v) ∈ l) : alLookup l k = some v := by
  induction l with
  | nil => simp at h
  | cons e rest ih =>
    obtain ⟨k2, v2⟩ := e
    unfold alKeysND at hnd
    rw [List.map_cons, List.nodup_cons] at hnd
    rcases List.mem_cons.mp h with h1 | h1
    · rw [Prod.mk.injEq] at h1
      simp [alLookup, h1.1.symm, h1.2]
    · have hk : k2 ≠ k := by
        intro he
        subst he
        exact hnd.1 (List.mem_map.mpr ⟨(k2, v), h1, rfl⟩)
      simp [alLookup, hk, ih (by exact hnd.2) h1]

/-! Lemmas about buildMap. -/

theorem buildMap_aux (ts : List Task) (acc : String → Option Task) (x : String) (t : Task)
    (h : (ts.foldl (fun acc t => fun y => if y = t.id then some t else acc y) acc) x = some t) :
    acc x = some t ∨ (t ∈ ts ∧ t.id = x) := by
  induction ts generalizing acc with
  | nil => exact Or.inl h
  | cons u rest ih =>
    simp only [List.foldl_cons] at h
    rcases ih _ h with h2 | ⟨hm, hid⟩
    · by_cases hx : x = u.id
      · simp [hx] at h2
        subst h2
        exact Or.inr ⟨List.mem_cons_self _ _, hx.symm⟩
      · simp [hx] at h2
        exact Or.inl h2
    · exact Or.inr ⟨List.mem_cons_of_mem _ hm, hid⟩

theorem buildMap_mem (ts : List Task) (x : String) (t : Task)
    (h : buildMap ts x = some t) : t ∈ ts ∧ t.id = x := by
  rcases buildMap_aux ts (fun _ => none) x t h with h | h
  · simp at h
  · exact h

theorem buildMap_support (ts : List Task) (x : String)
    (h : (buildMap ts x).isSome = true) : x ∈ ts.map Task.id := by
  rcases Option.isSome_iff_exists.mp h with ⟨t, ht⟩
  rcases buildMap_mem ts x t ht with ⟨hm, hid⟩
  exact List.mem_map.mpr ⟨t, hm, hid⟩

/-- Transitive closure of a rank-decreasing relation decreases rank. -/
theorem transGen_rank_lt {r : String → String → Prop} {rank : String → Nat}
    (hr : ∀ a b, r a b → rank b < rank a) :
    ∀ a b, Relation.TransGen r a b → rank b < rank a := by
  intro a b h
  induction h with
  | single h1 => exact hr _ _ h1
  | tail _ h2 ih => exact lt_trans (hr _ _ h2) ih

/-- Sufficient criterion for acyclicity of the dependency relation:
some numeric rank strictly drops along every declared dependency. -/
theorem acyclic_of_rank (ts : List Task) (rank : String → Nat)
    (h : ∀ t ∈ ts, ∀ d ∈ t.options.deps.getD [], rank d < rank t.id) :
    Acyclic ts := by
  intro a htg
  have hedge : ∀ x y, edgeP (buildMap ts) x y → rank y < rank x := by
    intro x y hxy
    unfold edgeP depsOf at hxy
    cases hb : buildMap ts x with
    | none => rw [hb] at hxy; simp at hxy
    | some t =>
      rw [hb] at hxy
      rcases buildMap_mem ts x t hb with ⟨hm, hid⟩
      have := h t hm y hxy
      rwa [hid] at this
  exact absurd (transGen_rank_lt hedge a a htg) (lt_irrefl _)

/-! Lemmas about the dispatch pass. -/

theorem depsScan_cons (tid d : String) (rest : List String) (pm : PromMap) :
    depsScan tid (d :: rest) pm =
      if jsFalsy (alLookup pm d) = true then depsScan tid rest (alSet pm tid none)
      else depsScan tid rest pm := rfl

theorem depsScan_lookup_ne (tid : String) (ds : List String) (pm : PromMap) (k : String)
    (h : k ≠ tid) : alLookup (depsScan tid ds pm) k = alLookup pm k := by
  induction ds generalizing pm with
  | nil => rfl
  | cons d rest ih =>
    unfold depsScan
    by_cases hd : jsFalsy (alLookup pm d) = true
    · rw [if_pos hd, ih, alLookup_alSet_ne _ _ _ _ h]
    · rw [if_neg hd, ih]

theorem depsScan_none_stable (tid : String) (ds : List String) (pm : PromMap)
    (h : alLookup pm tid = some none) :
    alLookup (depsScan tid ds pm) tid = some none := by
  induction ds generalizing pm with
  | nil => exact h
  | cons d rest ih =>
    unfold depsScan
    by_cases hd : jsFalsy (alLookup pm d) = true
    · rw [if_pos hd]
      exact ih _ (alLookup_alSet_self pm tid none)
    · rw [if_neg hd]
      exact ih _ h

theorem depsScan_append (tid : String) (ds1 ds2 : List String) (pm : PromMap) :
    depsScan tid (ds1 ++ ds2) pm = depsScan tid ds2 (depsScan tid ds1 pm) := by
  induction ds1 generalizing pm with
  | nil => rfl
  | cons d rest ih =>
    rw [List.cons_append, depsScan_cons, depsScan_cons]
    by_cases hd : jsFalsy (alLookup pm d) = true
    · rw [if_pos hd, if_pos hd, ih]
    · rw [if_neg hd, if_neg hd, ih]

theorem depsScan_mem_some (tid : String) (ds : List String) (pm : PromMap)
    (k : String) (j : Nat) (h : (k, some j) ∈ depsScan tid ds pm) :
    (k, some j) ∈ pm := by
  induction ds generalizing pm with
  | nil => exact h
  | cons d rest ih =>
    unfold depsScan at h
    by_cases hd : jsFalsy (alLookup pm d) = true
    · rw [if_pos hd] at h
      rcases alSet_mem _ _ _ _ (ih _ h) with he | he
      · exact absurd he (by simp)
      · exact he
    · rw [if_neg hd] at h
      exact ih _ h

theorem depsScan_keysND (tid : String) (ds : List String) (pm : PromMap)
    (h : alKeysND pm) : alKeysND (depsScan tid ds pm) := by
  induction ds generalizing pm with
  | nil => exact h
  | cons d rest ih =>
    unfold depsScan
    by_cases hd : jsFalsy (alLookup pm d) = true
    · rw [if_pos hd]
      exact ih _ (alSet_keysND _ _ _ h)
    · rw [if_neg hd]
      exact ih _ h

theorem dispatchStep_lookup_ne (i : Nat) (t : Task) (pm : PromMap) (k : String)
    (h : k ≠ t.id) : alLookup (dispatchStep i t pm) k = alLookup pm k := by
  unfold dispatchStep
  cases t.options.deps with
  | none => exact alLookup_alSet_ne _ _ _ _ h
  | some ds => rw [depsScan_lookup_ne _ _ _ _ h, alLookup_alSet_ne _ _ _ _ h]

theorem dispatchStep_mem_some (i : Nat) (t : Task) (pm : PromMap) (k : String) (j : Nat)
    (h : (k, some j) ∈ dispatchStep i t pm) :
    (k = t.id ∧ j = i) ∨ (k, some j) ∈ pm := by
  unfold dispatchStep at h
  have halset : (k, some j) ∈ alSet pm t.id (some i) →
      (k = t.id ∧ j = i) ∨ (k, some j) ∈ pm := by
    intro hm
    rcases alSet_mem _ _ _ _ hm with he | he
    · rw [Prod.mk.injEq] at he
      exact Or.inl ⟨he.1, by simpa using he.2⟩
    · exact Or.inr he
  cases hdeps : t.options.deps with
  | none =>
    rw [hdeps] at h
    exact halset h
  | some ds =>
    rw [hdeps] at h
    exact halset (depsScan_mem_some _ _ _ _ _ h)

theorem dispatchStep_keysND (i : Nat) (t : Task) (pm : PromMap)
    (h : alKeysND pm) : alKeysND (dispatchStep i t pm) := by
  unfold dispatchStep
  cases t.options.deps with
  | none => exact alSet_keysND _ _ _ h
  | some ds => exact depsScan_keysND _ _ _ (alSet_keysND _ _ _ h)

theorem dispatchGo_append (l1 l2 : List Task) (i : Nat) (pm : PromMap) :
    dispatchGo (l1 ++ l2) i pm = dispatchGo l2 (i + l1.length) (dispatchGo l1 i pm) := by
  induction l1 generalizing i pm with
  | nil => simp [dispatchGo]
  | cons t rest ih =>
    rw [List.cons_append]
    show dispatchGo (rest ++ l2) (i + 1) (dispatchStep i t pm) = _
    rw [ih]
    have harith : i + 1 + rest.length = i + (t :: rest).length := by
      simp [List.length_cons]
      omega
    rw [harith]
    rfl

theorem dispatchGo_lookup_not_mem (l : List Task) (i : Nat) (pm : PromMap) (k : String)
    (h : k ∉ l.map Task.id) : alLookup (dispatchGo l i pm) k = alLookup pm k := by
  induction l generalizing i pm with
  | nil => rfl
  | cons t rest ih =>
    rw [List.map_cons] at h
    have h1 : k ≠ t.id := by
      intro he
      exact h (by rw [he]; exact List.mem_cons_self _ _)
    have h2 : k ∉ rest.map Task.id := fun hm => h (List.mem_cons_of_mem _ hm)
    show alLookup (dispatchGo rest (i + 1) (dispatchStep i t pm)) k = _
    rw [ih _ _ h2, dispatchStep_lookup_ne _ _ _ _ h1]

theorem dispatchGo_keysND (l : List Task) (i : Nat) (pm : PromMap)
    (h : alKeysND pm) : alKeysND (dispatchGo l i pm) := by
  induction l generalizing i pm with
  | nil => exact h
  | cons t rest ih => exact ih _ _ (dispatchStep_keysND _ _ _ h)

theorem dispatch_keysND (ts : List Task) : alKeysND (dispatch ts) :=
  dispatchGo_keysND ts 0 [] (by simp [alKeysND])

theorem dispatchGo_values {P : String → Nat → Prop} (l : List Task) (i : Nat) (pm : PromMap)
    (hpm : ∀ k j, (k, some j) ∈ pm → P k j)
    (hl : ∀ m t, l[m]? = some t → P t.id (i + m)) :
    ∀ k j, (k, some j) ∈ dispatchGo l i pm → P k j := by
  induction l generalizing i pm with
  | nil => exact hpm
  | cons t rest ih =>
    intro k j hm
    refine ih (i + 1) _ ?_ ?_ k j hm
    · intro k2 j2 hm2
      rcases dispatchStep_mem_some _ _ _ _ _ hm2 with ⟨hk, hj⟩ | hm3
      · subst hk; subst hj
        have := hl 0 t (by simp)
        simpa using this
      · exact hpm _ _ hm3
    · intro m u hu
      have := hl (m + 1) u (by simpa using hu)
      have harith : i + (m + 1) = i + 1 + m := by omega
      rwa [harith] at this

theorem dispatch_values (ts : List Task) (k : String) (j : Nat)
    (h : (k, some j) ∈ dispatch ts) : ∃ t, ts[j]? = some t ∧ t.id = k := by
  refine @dispatchGo_values (fun k2 j2 => ∃ t, ts[j2]? = some t ∧ t.id = k2) ts 0 []
    (fun k2 j2 hm => absurd hm (by simp)) ?_ k j h
  intro m t ht
  exact ⟨t, by simpa using ht, rfl⟩

/-! Lemmas about settlement and the final context. -/

theorem run_error_of_rejected (fm : FlowManager) (init : Ctx) (k : String) (i : Nat)
    (t : Task) (r : Reason)
    (hdet : detectCircularDependencys fm.taskList = .ok ())
    (hmem : (k, some i) ∈ dispatch fm.taskList)
    (ht : fm.taskList[i]? = some t)
    (hout : outcomeOf fm.options.timeout t = .rejected r) :
    ∃ rs, run fm init = .error (.flowFailed rs) ∧ r ∈ rs := by
  have hret : Outcome.rejected r ∈ retList fm.options.timeout fm.taskList (dispatch fm.taskList) := by
    refine List.mem_map.mpr ⟨(k, some i), hmem, ?_⟩
    simp [ht, hout]
  have hnall : (retList fm.options.timeout fm.taskList (dispatch fm.taskList)).all isFulfilled ≠ true := by
    intro hall
    have := List.all_eq_true.mp hall _ hret
    simp [isFulfilled] at this
  refine ⟨(retList fm.options.timeout fm.taskList (dispatch fm.taskList)).filterMap reasonOf, ?_, ?_⟩
  · unfold run
    rw [hdet]
    simp only []
    rw [if_neg hnall]
  · exact List.mem_filterMap.mpr ⟨.rejected r, hret, rfl⟩

theorem run_reasons_mem (fm : FlowManager) (init : Ctx) (rs : List Reason) (r : Reason)
    (hdet : detectCircularDependencys fm.taskList = .ok ())
    (hrun : run fm init = .error (.flowFailed rs)) (hr : r ∈ rs) :
    ∃ k i t, (k, some i) ∈ dispatch fm.taskList ∧ fm.taskList[i]? = some t ∧
      outcomeOf fm.options.timeout t = .rejected r := by
  unfold run at hrun
  rw [hdet] at hrun
  simp only [] at hrun
  by_cases hall : (retList fm.options.timeout fm.taskList (dispatch fm.taskList)).all isFulfilled = true
  · rw [if_pos hall] at hrun
    exact absurd hrun (by simp)
  · rw [if_neg hall] at hrun
    have hrs : rs = (retList fm.options.timeout fm.taskList (dispatch fm.taskList)).filterMap reasonOf := by
      have := hrun
      simp at this
      exact this.symm
    subst hrs
    rcases List.mem_filterMap.mp hr with ⟨o, ho, hro⟩
    have hoeq : o = .rejected r := by
      cases o with
      | fulfilled v => simp [reasonOf] at hro
      | rejected r2 => simp [reasonOf] at hro; rw [hro]
    subst hoeq
    rcases List.mem_map.mp ho with ⟨e, he, hfe⟩
    obtain ⟨k, v⟩ := e
    cases v with
    | none => simp at hfe
    | some i =>
      dsimp only at hfe
      cases hti : fm.taskList[i]? with
      | none => rw [hti] at hfe; simp at hfe
      | some t =>
        rw [hti] at hfe
        simp at hfe
        exact ⟨k, i, t, he, hti, hfe⟩

theorem outcomeOf_rejected_id (timeout : Nat) (t : Task) (r : Reason)
    (h : outcomeOf timeout t = .rejected r) :
    (∃ msg, r = .failed t.id msg) ∨ r = .timedOut t.id := by
  unfold outcomeOf at h
  by_cases hd : timeout < t.options.executor.duration
  · rw [if_pos hd] at h
    simp at h
    exact Or.inr h.symm
  · rw [if_neg hd] at h
    cases hres : t.options.executor.result with
    | error msg => rw [hres] at h; simp at h; exact Or.inl ⟨msg, h.symm⟩
    | ok v => rw [hres] at h; simp at h

theorem finalContext_preserve (ts : List Task) (init : Ctx) (k : String)
    (h : k ∉ ts.map Task.id) : alLookup (finalContext init ts) k = alLookup init k := by
  induction ts generalizing init with
  | nil => rfl
  | cons t rest ih =>
    rw [List.map_cons] at h
    have h1 : k ≠ t.id := by
      intro he
      exact h (by rw [he]; exact List.mem_cons_self _ _)
    have h2 : k ∉ rest.map Task.id := fun hm => h (List.mem_cons_of_mem _ hm)
    show alLookup (finalContext (alSet init t.id (entryOf t)) rest) k = _
    rw [ih _ h2, alLookup_alSet_ne _ _ _ _ h1]

theorem finalContext_lookup (ts : List Task) (init : Ctx) (t : Task)
    (hnd : (ts.map Task.id).Nodup) (hm : t ∈ ts) :
    alLookup (finalContext init ts) t.id = some (entryOf t) := by
  induction ts generalizing init with
  | nil => simp at hm
  | cons u rest ih =>
    rw [List.map_cons, List.nodup_cons] at hnd
    rcases List.mem_cons.mp hm with he | hmr
    · subst he
      unfold finalContext
      rw [List.foldl_cons]
      have hpres := finalContext_preserve rest (alSet init t.id (entryOf t)) t.id hnd.1
      unfold finalContext at hpres
      rw [hpres, alLookup_alSet_self]
    · show alLookup (finalContext (alSet init u.id (entryOf u)) rest) t.id = _
      exact ih _ hnd.2 hmr

theorem mem_id_unique (ts : List Task) (hnd : (ts.map Task.id).Nodup)
    (t u : Task) (ht : t ∈ ts) (hu : u ∈ ts) (hid : t.id = u.id) : t = u :=
  List.inj_on_of_nodup_map hnd ht hu hid

/-! Arithmetic of the fuel measure. -/

theorem freeCount_mono (K v1 v2 : List String) (h : ∀ x ∈ v1, x ∈ v2) :
    freeCount K v2 ≤ freeCount K v1 := by
  unfold freeCount
  induction K with
  | nil => exact Nat.le_refl _
  | cons a rest ih =>
    rw [List.filter_cons, List.filter_cons]
    by_cases h2 : a ∈ v2
    · have e2 : decide (a ∉ v2) = false := by simp [h2]
      rw [e2, if_neg Bool.false_ne_true]
      by_cases h1 : a ∈ v1
      · have e1 : decide (a ∉ v1) = false := by simp [h1]
        rw [e1, if_neg Bool.false_ne_true]
        exact ih
      · have e1 : decide (a ∉ v1) = true := by simp [h1]
        rw [e1, if_pos rfl]
        simp only [List.length_cons]
        exact le_trans ih (Nat.le_succ _)
    · have h1 : a ∉ v1 := fun hm => h2 (h a hm)
      have e2 : decide (a ∉ v2) = true := by simp [h2]
      have e1 : decide (a ∉ v1) = true := by simp [h1]
      rw [e1, e2, if_pos rfl, if_pos rfl]
      simp only [List.length_cons]
      exact Nat.succ_le_succ ih

theorem freeCount_lt (K visited : List String) (a : String)
    (hK : a ∈ K) (hv : a ∉ visited) :
    freeCount K (a :: visited) < freeCount K visited := by
  unfold freeCount
  induction K with
  | nil => simp at hK
  | cons b rest ih =>
    rw [List.filter_cons, List.filter_cons]
    by_cases hba : b = a
    · subst hba
      have e1 : decide (b ∉ b :: visited) = false := by simp
      have e2 : decide (b ∉ visited) = true := by simp [hv]
      rw [e1, e2, if_neg Bool.false_ne_true, if_pos rfl]
      have hmono := freeCount_mono rest visited (b :: visited)
        (fun x hx => List.mem_cons_of_mem _ hx)
      unfold freeCount at hmono
      simp only [List.length_cons]
      omega
    · have harest : a ∈ rest := by
        rcases List.mem_cons.mp hK with he | he
        · exact absurd he.symm hba
        · exact he
      by_cases hbv : b ∈ visited
      · have e1 : decide (b ∉ a :: visited) = false := by simp [hbv]
        have e2 : decide (b ∉ visited) = false := by simp [hbv]
        rw [e1, e2, if_neg Bool.false_ne_true, if_neg Bool.false_ne_true]
        exact ih harest
      · have e1 : decide (b ∉ a :: visited) = true := by simp [hba, hbv]
        have e2 : decide (b ∉ visited) = true := by simp [hbv]
        rw [e1, e2, if_pos rfl, if_pos rfl]
        simp only [List.length_cons]
        exact Nat.succ_lt_succ (ih harest)

theorem freeCount_le (K visited : List String) : freeCount K visited ≤ K.length :=
  List.length_filter_le _ _

/-! Transitive closure helpers. -/

theorem transGen_head_decomp {α : Type} {r : α → α → Prop} {a b : α}
    (h : Relation.TransGen r a b) : ∃ c, r a c ∧ Relation.ReflTransGen r c b := by
  induction h with
  | single h1 => exact ⟨_, h1, Relation.ReflTransGen.refl⟩
  | tail h1 h2 ih =>
    rcases ih with ⟨c, hc, hr⟩
    exact ⟨c, hc, hr.tail h2⟩

theorem stackChain_reach (tm : String → Option Task) (l : List String) (x d : String)
    (h : stackChain tm (x :: l)) (hd : d ∈ x :: l) :
    Relation.ReflTransGen (edgeP tm) d x := by
  induction l generalizing x with
  | nil =>
    have : d = x := by simpa using hd
    subst this
    exact Relation.ReflTransGen.refl
  | cons y rest ih =>
    obtain ⟨hxy, hch⟩ := h
    rcases List.mem_cons.mp hd with he | hd2
    · subst he
      exact Relation.ReflTransGen.refl
    · exact (ih y hch hd2).tail hxy

theorem getLastD_mem_cons (l : List String) (x : String) : l.getLastD x ∈ x :: l := by
  induction l generalizing x with
  | nil => simp
  | cons y rest ih =>
    rw [List.getLastD_cons]
    exact List.mem_cons_of_mem _ (ih y)

theorem getLastD_cons_irrel (y : String) (l : List String) (x z : String) :
    (y :: l).getLastD x = (y :: l).getLastD z := by
  rw [List.getLastD_cons, List.getLastD_cons]

/-! Basic bookkeeping of the DFS: the visited set grows, the recursion
stack is restored on a false return, and errors are justified. -/

theorem depsLoopF_basic (tm : String → Option Task) (K : List String) (fuel : Nat)
    (hhc : ∀ taskId st, hcBasicP tm K fuel taskId st) (tid : String) (task : Task)
    (htm : tm tid = some task) :
    ∀ deps st, (∀ x ∈ deps, x ∈ task.options.deps.getD []) →
      dlBasicP tm K fuel tid deps st := by
  intro deps
  induction deps with
  | nil =>
    intro st hsub
    constructor
    · intro b st2 hok
      have hok2 : (Except.ok (false, st) : Except FlowError (Bool × DfsState)) =
        .ok (b, st2) := hok
      simp only [Except.ok.injEq, Prod.mk.injEq] at hok2
      obtain ⟨hb, hst⟩ := hok2
      subst hb
      subst hst
      exact ⟨fun x hx => hx, fun hwf => ⟨hwf, fun _ => rfl⟩⟩
    · intro e herr
      have : (Except.ok (false, st) : Except FlowError (Bool × DfsState)) = .error e := herr
      exact absurd this (by simp)
  | cons dep rest ih =>
    intro st hsub
    have hsubr : ∀ x ∈ rest, x ∈ task.options.deps.getD [] :=
      fun x hx => hsub x (List.mem_cons_of_mem _ hx)
    by_cases hnone : (tm dep).isNone = true
    · constructor
      · intro b st2 hok
        unfold depsLoopF at hok
        rw [if_pos hnone] at hok
        exact absurd hok (by simp)
      · intro e herr
        unfold depsLoopF at herr
        rw [if_pos hnone] at herr
        simp only [Except.error.injEq] at herr
        subst herr
        exact Or.inr ⟨Option.isNone_iff_eq_none.mp hnone, task, htm,
          hsub dep (List.mem_cons_self _ _)⟩
    · by_cases hv : dep ∈ st.visited
      · by_cases hrs : dep ∈ st.recStack
        · constructor
          · intro b st2 hok
            unfold depsLoopF at hok
            rw [if_neg hnone, if_pos hv, if_pos hrs] at hok
            simp only [Except.ok.injEq, Prod.mk.injEq] at hok
            obtain ⟨hb, hst⟩ := hok
            subst hst
            exact ⟨fun x hx => hx, fun hwf => ⟨hwf, fun _ => rfl⟩⟩
          · intro e herr
            unfold depsLoopF at herr
            rw [if_neg hnone, if_pos hv, if_pos hrs] at herr
            exact absurd herr (by simp)
        · have hrest := ih st hsubr
          constructor
          · intro b st2 hok
            unfold depsLoopF at hok
            rw [if_neg hnone, if_pos hv, if_neg hrs] at hok
            exact hrest.1 b st2 hok
          · intro e herr
            unfold depsLoopF at herr
            rw [if_neg hnone, if_pos hv, if_neg hrs] at herr
            exact hrest.2 e herr
      · cases hres : hasCycle tm fuel dep st with
        | error e2 =>
          constructor
          · intro b st2 hok
            unfold depsLoopF at hok
            rw [if_neg hnone, if_neg hv, hres] at hok
            exact absurd hok (by simp)
          · intro e herr
            unfold depsLoopF at herr
            rw [if_neg hnone, if_neg hv, hres] at herr
            simp only [Except.error.injEq] at herr
            subst herr
            exact (hhc dep st).2 e2 hres
        | ok p =>
          obtain ⟨bb, stm⟩ := p
          have hbase := (hhc dep st).1 bb stm hres
          cases bb with
          | true =>
            constructor
            · intro b st2 hok
              unfold depsLoopF at hok
              rw [if_neg hnone, if_neg hv, hres] at hok
              simp only [Except.ok.injEq, Prod.mk.injEq] at hok
              obtain ⟨hb, hst⟩ := hok
              subst hst
              subst hb
              exact ⟨hbase.1, fun hwf => ⟨(hbase.2 hwf).1,
                fun hfalse => absurd hfalse (by simp)⟩⟩
            · intro e herr
              unfold depsLoopF at herr
              rw [if_neg hnone, if_neg hv, hres] at herr
              exact absurd herr (by simp)
          | false =>
            by_cases hrs2 : dep ∈ stm.recStack
            · constructor
              · intro b st2 hok
                unfold depsLoopF at hok
                rw [if_neg hnone, if_neg hv, hres] at hok
                dsimp only at hok
                rw [if_pos hrs2] at hok
                simp only [Except.ok.injEq, Prod.mk.injEq] at hok
                obtain ⟨hb, hst⟩ := hok
                subst hst
                subst hb
                exact ⟨hbase.1, fun hwf => ⟨(hbase.2 hwf).1,
                  fun hfalse => absurd hfalse (by simp)⟩⟩
              · intro e herr
                unfold depsLoopF at herr
                rw [if_neg hnone, if_neg hv, hres] at herr
                dsimp only at herr
                rw [if_pos hrs2] at herr
                exact absurd herr (by simp)
            · have hrest := ih stm hsubr
              constructor
              · intro b st2 hok
                unfold depsLoopF at hok
                rw [if_neg hnone, if_neg hv, hres] at hok
                dsimp only at hok
                rw [if_neg hrs2] at hok
                refine ⟨fun x hx => (hrest.1 b st2 hok).1 x (hbase.1 x hx), fun hwf => ?_⟩
                have hwf2 : dfsWF stm := (hbase.2 hwf).1
                refine ⟨((hrest.1 b st2 hok).2 hwf2).1, fun hb => ?_⟩
                have h3 : st2.recStack = stm.recStack := ((hrest.1 b st2 hok).2 hwf2).2 hb
                have hdeprs : dep ∉ st.recStack := fun hm => hv (hwf dep hm)
                have h2 : stm.recStack = st.recStack := ((hbase.2 hwf).2 hdeprs rfl).1
                rw [h3, h2]
              · intro e herr
                unfold depsLoopF at herr
                rw [if_neg hnone, if_neg hv, hres] at herr
                dsimp only at herr
                rw [if_neg hrs2] at herr
                rcases hrest.2 e herr with ⟨hfe, hle⟩ | hunk
                · exact Or.inl ⟨hfe, fun hKs =>
                    le_trans (hle hKs) (freeCount_mono K st.visited stm.visited hbase.1)⟩
                · exact Or.inr hunk

theorem hasCycle_basic (tm : String → Option Task) (K : List String) :
    ∀ fuel taskId st, hcBasicP tm K fuel taskId st := by
  intro fuel
  induction fuel with
  | zero =>
    intro taskId st
    constructor
    · intro b st2 hok
      exact absurd hok (by simp [hasCycle])
    · intro e herr
      have h2 : (Except.error FlowError.fuelExhausted :
        Except FlowError (Bool × DfsState)) = .error e := herr
      simp only [Except.error.injEq] at h2
      subst h2
      exact Or.inl ⟨rfl, fun _ => Nat.zero_le _⟩
  | succ f ihf =>
    intro taskId st
    constructor
    · intro b st2 hok
      simp only [hasCycle] at hok
      by_cases hv : taskId ∈ st.visited
      · rw [if_pos hv] at hok
        simp only [Except.ok.injEq, Prod.mk.injEq] at hok
        obtain ⟨hb, hst⟩ := hok
        subst hb
        subst hst
        refine ⟨fun x hx => hx, fun hwf => ⟨?_, fun hnrs _ => ⟨?_, hv⟩⟩⟩
        · intro x hx
          exact hwf x (List.mem_of_mem_erase hx)
        · show st.recStack.erase taskId = st.recStack
          exact List.erase_of_not_mem hnrs
      · rw [if_neg hv] at hok
        cases htm : tm taskId with
        | none =>
          rw [htm] at hok
          simp only [Except.ok.injEq, Prod.mk.injEq] at hok
          obtain ⟨hb, hst⟩ := hok
          subst hb
          subst hst
          refine ⟨fun x hx => List.mem_cons_of_mem _ hx, fun hwf => ?_⟩
          have hrseq : ((taskId :: st.recStack).erase taskId) = st.recStack :=
            List.erase_cons_head _ _
          refine ⟨?_, fun _ _ => ⟨hrseq, List.mem_cons_self _ _⟩⟩
          intro x hx
          show x ∈ taskId :: st.visited
          rw [hrseq] at hx
          exact List.mem_cons_of_mem _ (hwf x hx)
        | some task =>
          rw [htm] at hok
          dsimp only at hok
          cases hdeps : task.options.deps with
          | none =>
            rw [hdeps] at hok
            simp only [Except.ok.injEq, Prod.mk.injEq] at hok
            obtain ⟨hb, hst⟩ := hok
            subst hb
            subst hst
            refine ⟨fun x hx => List.mem_cons_of_mem _ hx, fun hwf => ?_⟩
            have hrseq : ((taskId :: st.recStack).erase taskId) = st.recStack :=
              List.erase_cons_head _ _
            refine ⟨?_, fun _ _ => ⟨hrseq, List.mem_cons_self _ _⟩⟩
            intro x hx
            show x ∈ taskId :: st.visited
            rw [hrseq] at hx
            exact List.mem_cons_of_mem _ (hwf x hx)
          | some ds =>
            rw [hdeps] at hok
            dsimp only at hok
            have hdl := depsLoopF_basic tm K f ihf taskId task htm ds
              ⟨taskId :: st.visited, taskId :: st.recStack⟩
              (fun x hx => by rw [hdeps]; exact hx)
            have hwf1 : dfsWF st → dfsWF ⟨taskId :: st.visited, taskId :: st.recStack⟩ := by
              intro hwf x hx
              rcases List.mem_cons.mp hx with he | hx2
              · subst he
                exact List.mem_cons_self _ _
              · exact List.mem_cons_of_mem _ (hwf x hx2)
            cases hres : depsLoopF tm (hasCycle tm f) taskId ds
                ⟨taskId :: st.visited, taskId :: st.recStack⟩ with
            | error e2 =>
              rw [hres] at hok
              exact absurd hok (by simp)
            | ok p =>
              obtain ⟨bb, stm⟩ := p
              have hbase := hdl.1 bb stm hres
              cases bb with
              | true =>
                rw [hres] at hok
                simp only [Except.ok.injEq, Prod.mk.injEq] at hok
                obtain ⟨hb, hst⟩ := hok
                subst hb
                subst hst
                refine ⟨fun x hx => hbase.1 x (List.mem_cons_of_mem _ hx), fun hwf => ?_⟩
                exact ⟨(hbase.2 (hwf1 hwf)).1, fun _ hfalse => absurd hfalse (by simp)⟩
              | false =>
                rw [hres] at hok
                simp only [Except.ok.injEq, Prod.mk.injEq] at hok
                obtain ⟨hb, hst⟩ := hok
                subst hb
                subst hst
                refine ⟨fun x hx => hbase.1 x (List.mem_cons_of_mem _ hx), fun hwf => ?_⟩
                have hwfm : dfsWF stm := (hbase.2 (hwf1 hwf)).1
                constructor
                · intro x hx
                  show x ∈ stm.visited
                  exact hwfm x (List.mem_of_mem_erase hx)
                · intro hnrs _
                  have hstm : stm.recStack = taskId :: st.recStack :=
                    (hbase.2 (hwf1 hwf)).2 rfl
                  constructor
                  · show stm.recStack.erase taskId = st.recStack
                    rw [hstm]
                    exact List.erase_cons_head _ _
                  · show taskId ∈ stm.visited
                    exact hbase.1 taskId (List.mem_cons_self _ _)
    · intro e herr
      simp only [hasCycle] at herr
      by_cases hv : taskId ∈ st.visited
      · rw [if_pos hv] at herr
        exact absurd herr (by simp)
      · rw [if_neg hv] at herr
        cases htm : tm taskId with
        | none =>
          rw [htm] at herr
          exact absurd herr (by simp)
        | some task =>
          rw [htm] at herr
          dsimp only at herr
          cases hdeps : task.options.deps with
          | none =>
            rw [hdeps] at herr
            exact absurd herr (by simp)
          | some ds =>
            rw [hdeps] at herr
            dsimp only at herr
            have hdl := depsLoopF_basic tm K f ihf taskId task htm ds
              ⟨taskId :: st.visited, taskId :: st.recStack⟩
              (fun x hx => by rw [hdeps]; exact hx)
            cases hres : depsLoopF tm (hasCycle tm f) taskId ds
                ⟨taskId :: st.visited, taskId :: st.recStack⟩ with
            | error e2 =>
              rw [hres] at herr
              simp only [Except.error.injEq] at herr
              subst herr
              rcases hdl.2 e2 hres with ⟨hfe, hle⟩ | hunk
              · refine Or.inl ⟨hfe, fun hKs => ?_⟩
                have hKmem : taskId ∈ K := hKs taskId (by rw [htm]; rfl)
                have hlt := freeCount_lt K st.visited taskId hKmem hv
                have hle2 := hle hKs
                have heq : freeCount K (taskId :: st.visited) =
                    freeCount K (DfsState.mk (taskId :: st.visited) (taskId :: st.recStack)).visited := rfl
                omega
              · exact Or.inr hunk
            | ok p =>
              obtain ⟨bb, stm⟩ := p
              cases bb with
              | true =>
                rw [hres] at herr
                exact absurd herr (by simp)
              | false =>
                rw [hres] at herr
                exact absurd herr (by simp)

/-! Soundness of the DFS: a true return exhibits a cycle reachable
from the root of the traversal. -/

theorem depsLoopF_sound (tm : String → Option Task) (fuel : Nat)
    (hhcS : ∀ taskId st, hcSoundP tm fuel taskId st) (tid : String) :
    ∀ deps st, dlSoundP tm fuel tid deps st := by
  intro deps
  induction deps with
  | nil =>
    intro st hwf hhead hchain hdeps st2 hok
    have : (Except.ok (false, st) : Except FlowError (Bool × DfsState)) =
      .ok (true, st2) := hok
    simp at this
  | cons dep rest ih =>
    intro st hwf hhead hchain hdeps st2 hok
    obtain ⟨rs, hrseq⟩ := hhead
    obtain ⟨task, htm, hsub⟩ := hdeps
    have hsubr : ∀ x ∈ rest, x ∈ task.options.deps.getD [] :=
      fun x hx => hsub x (List.mem_cons_of_mem _ hx)
    have hedge : edgeP tm tid dep := by
      unfold edgeP depsOf
      rw [htm]
      exact hsub dep (List.mem_cons_self _ _)
    unfold depsLoopF at hok
    by_cases hnone : (tm dep).isNone = true
    · rw [if_pos hnone] at hok
      exact absurd hok (by simp)
    · rw [if_neg hnone] at hok
      by_cases hv : dep ∈ st.visited
      · rw [if_pos hv] at hok
        by_cases hrsm : dep ∈ st.recStack
        · have hch : stackChain tm (tid :: rs) := by
            rw [← hrseq]
            exact hchain
          have hdmem : dep ∈ tid :: rs := by
            rw [← hrseq]
            exact hrsm
          have hreach : Relation.ReflTransGen (edgeP tm) dep tid :=
            stackChain_reach tm rs tid dep hch hdmem
          have hcyc : Relation.TransGen (edgeP tm) dep dep :=
            Relation.TransGen.tail' hreach hedge
          have hrootmem : rs.getLastD tid ∈ tid :: rs := getLastD_mem_cons rs tid
          have h1 : Relation.ReflTransGen (edgeP tm) (rs.getLastD tid) tid :=
            stackChain_reach tm rs tid _ hch hrootmem
          refine ⟨dep, hcyc, ?_⟩
          rw [hrseq, List.getLastD_cons]
          exact h1.tail hedge
        · rw [if_neg hrsm] at hok
          exact ih st hwf ⟨rs, hrseq⟩ hchain ⟨task, htm, hsubr⟩ st2 hok
      · rw [if_neg hv] at hok
        cases hres : hasCycle tm fuel dep st with
        | error e2 =>
          rw [hres] at hok
          exact absurd hok (by simp)
        | ok p =>
          obtain ⟨bb, stm⟩ := p
          cases bb with
          | true =>
            have hch2 : stackChain tm (dep :: st.recStack) := by
              rw [hrseq]
              exact ⟨hedge, by rw [← hrseq]; exact hchain⟩
            rcases hhcS dep st hwf hch2 stm hres with ⟨c, hc1, hc2⟩
            refine ⟨c, hc1, ?_⟩
            rw [hrseq]
            rw [hrseq] at hc2
            rw [getLastD_cons_irrel tid rs tid dep]
            exact hc2
          | false =>
            rw [hres] at hok
            dsimp only at hok
            have hbase := (hasCycle_basic tm [] fuel dep st).1 false stm hres
            have hdn : dep ∉ st.recStack := fun hm => hv (hwf dep hm)
            have hstm : stm.recStack = st.recStack := ((hbase.2 hwf).2 hdn rfl).1
            by_cases hrs2 : dep ∈ stm.recStack
            · exfalso
              rw [hstm] at hrs2
              exact hdn hrs2
            · rw [if_neg hrs2] at hok
              have hwfm : dfsWF stm := (hbase.2 hwf).1
              have hres2 := ih stm hwfm ⟨rs, by rw [hstm]; exact hrseq⟩
                (by rw [hstm]; exact hchain) ⟨task, htm, hsubr⟩ st2 hok
              rcases hres2 with ⟨c, hc1, hc2⟩
              refine ⟨c, hc1, ?_⟩
              rw [hstm] at hc2
              exact hc2

theorem hasCycle_sound (tm : String → Option Task) :
    ∀ fuel taskId st, hcSoundP tm fuel taskId st := by
  intro fuel
  induction fuel with
  | zero =>
    intro taskId st hwf hchain st2 hok
    exact absurd hok (by simp [hasCycle])
  | succ f ihf =>
    intro taskId st hwf hchain st2 hok
    simp only [hasCycle] at hok
    by_cases hv : taskId ∈ st.visited
    · rw [if_pos hv] at hok
      exact absurd hok (by simp)
    · rw [if_neg hv] at hok
      cases htm : tm taskId with
      | none =>
        rw [htm] at hok
        exact absurd hok (by simp)
      | some task =>
        rw [htm] at hok
        dsimp only at hok
        cases hdeps : task.options.deps with
        | none =>
          rw [hdeps] at hok
          exact absurd hok (by simp)
        | some ds =>
          rw [hdeps] at hok
          dsimp only at hok
          cases hres : depsLoopF tm (hasCycle tm f) taskId ds
              ⟨taskId :: st.visited, taskId :: st.recStack⟩ with
          | error e2 =>
            rw [hres] at hok
            exact absurd hok (by simp)
          | ok p =>
            obtain ⟨bb, stm⟩ := p
            cases bb with
            | false =>
              rw [hres] at hok
              exact absurd hok (by simp)
            | true =>
              have hwf1 : dfsWF ⟨taskId :: st.visited, taskId :: st.recStack⟩ := by
                intro x hx
                rcases List.mem_cons.mp hx with he | hx2
                · subst he
                  exact List.mem_cons_self _ _
                · exact List.mem_cons_of_mem _ (hwf x hx2)
              have hsound := depsLoopF_sound tm f ihf taskId ds
                ⟨taskId :: st.visited, taskId :: st.recStack⟩ hwf1
                ⟨st.recStack, rfl⟩ hchain
                ⟨task, htm, fun x hx => by rw [hdeps]; exact hx⟩ stm hres
              rcases hsound with ⟨c, hc1, hc2⟩
              refine ⟨c, hc1, ?_⟩
              rw [List.getLastD_cons] at hc2
              exact hc2

/-! Completeness of the DFS: a false return turns the node black, so
a full traversal without error leaves no node on a cycle. -/

theorem depsLoopF_complete (tm : String → Option Task) (fuel : Nat)
    (hhcC : ∀ taskId st, hcCompleteP tm fuel taskId st) (tid : String) (task : Task)
    (htm : tm tid = some task) :
    ∀ deps st, (∀ x ∈ deps, x ∈ task.options.deps.getD []) →
      dlCompleteP tm fuel tid deps st := by
  intro deps
  induction deps with
  | nil =>
    intro st hsub hwf hinv st2 hok
    have hok2 : (Except.ok (false, st) : Except FlowError (Bool × DfsState)) =
      .ok (false, st2) := hok
    simp only [Except.ok.injEq, Prod.mk.injEq, true_and] at hok2
    subst hok2
    exact ⟨hinv, fun d hd => absurd hd (List.not_mem_nil _)⟩
  | cons dep rest ih =>
    intro st hsub hwf hinv st2 hok
    have hsubr : ∀ x ∈ rest, x ∈ task.options.deps.getD [] :=
      fun x hx => hsub x (List.mem_cons_of_mem _ hx)
    unfold depsLoopF at hok
    by_cases hnone : (tm dep).isNone = true
    · rw [if_pos hnone] at hok
      exact absurd hok (by simp)
    · rw [if_neg hnone] at hok
      have hdepsome : (tm dep).isSome = true := by
        cases hd : tm dep with
        | none => rw [hd] at hnone; simp at hnone
        | some t => rfl
      by_cases hv : dep ∈ st.visited
      · rw [if_pos hv] at hok
        by_cases hrsm : dep ∈ st.recStack
        · rw [if_pos hrsm] at hok
          exact absurd hok (by simp)
        · rw [if_neg hrsm] at hok
          have hrest := ih st hsubr hwf hinv st2 hok
          refine ⟨hrest.1, ?_⟩
          intro d hd
          rcases List.mem_cons.mp hd with he | hd2
          · subst he
            have hb := (depsLoopF_basic tm [] fuel (hasCycle_basic tm [] fuel)
              tid task htm rest st hsubr).1 false st2 hok
            refine ⟨hb.1 d hv, ?_, hdepsome⟩
            rw [(hb.2 hwf).2 rfl]
            exact hrsm
          · exact hrest.2 d hd2
      · rw [if_neg hv] at hok
        cases hres : hasCycle tm fuel dep st with
        | error e2 =>
          rw [hres] at hok
          exact absurd hok (by simp)
        | ok p =>
          obtain ⟨bb, stm⟩ := p
          cases bb with
          | true =>
            rw [hres] at hok
            exact absurd hok (by simp)
          | false =>
            rw [hres] at hok
            dsimp only at hok
            have hdn : dep ∉ st.recStack := fun hm => hv (hwf dep hm)
            have hC := hhcC dep st hwf hdn hinv stm hres
            rw [if_neg hC.2.2] at hok
            have hbaseHC := (hasCycle_basic tm [] fuel dep st).1 false stm hres
            have hwfm : dfsWF stm := (hbaseHC.2 hwf).1
            have hrest := ih stm hsubr hwfm hC.1 st2 hok
            refine ⟨hrest.1, ?_⟩
            intro d hd
            rcases List.mem_cons.mp hd with he | hd2
            · subst he
              have hbRest := (depsLoopF_basic tm [] fuel (hasCycle_basic tm [] fuel)
                tid task htm rest stm hsubr).1 false st2 hok
              refine ⟨hbRest.1 d hC.2.1, ?_, hdepsome⟩
              rw [(hbRest.2 hwfm).2 rfl]
              exact hC.2.2
            · exact hrest.2 d hd2

theorem hasCycle_complete (tm : String → Option Task) :
    ∀ fuel taskId st, hcCompleteP tm fuel taskId st := by
  intro fuel
  induction fuel with
  | zero =>
    intro taskId st hwf hnrs hinv st2 hok
    exact absurd hok (by simp [hasCycle])
  | succ f ihf =>
    intro taskId st hwf hnrs hinv st2 hok
    simp only [hasCycle] at hok
    by_cases hv : taskId ∈ st.visited
    · rw [if_pos hv] at hok
      simp only [Except.ok.injEq, Prod.mk.injEq, true_and] at hok
      subst hok
      have herase : st.recStack.erase taskId = st.recStack := List.erase_of_not_mem hnrs
      refine ⟨?_, hv, ?_⟩
      · intro v hvm hvr
        show blackP tm v
        apply hinv v hvm
        show v ∉ st.recStack
        rw [← herase]
        exact hvr
      · show taskId ∉ st.recStack.erase taskId
        rw [herase]
        exact hnrs
    · rw [if_neg hv] at hok
      cases htm : tm taskId with
      | none =>
        rw [htm] at hok
        simp only [Except.ok.injEq, Prod.mk.injEq, true_and] at hok
        subst hok
        have herase : (taskId :: st.recStack).erase taskId = st.recStack :=
          List.erase_cons_head _ _
        have hnoedge : ∀ x, ¬ edgeP tm taskId x := by
          intro x hx
          unfold edgeP depsOf at hx
          rw [htm] at hx
          simp at hx
        refine ⟨?_, List.mem_cons_self _ _, ?_⟩
        · intro v hvm hvr
          rw [show (DfsState.mk (taskId :: st.visited)
            ((taskId :: st.recStack).erase taskId)).recStack =
            st.recStack from by rw [herase]] at hvr
          rcases List.mem_cons.mp hvm with he | hv2
          · subst he
            constructor
            · intro d hd
              unfold depsOf at hd
              rw [htm] at hd
              simp at hd
            · intro c hrt htg
              rcases Relation.ReflTransGen.cases_head hrt with he2 | ⟨b, hb, _⟩
              · subst he2
                rcases transGen_head_decomp htg with ⟨x, hx, _⟩
                exact hnoedge x hx
              · exact hnoedge b hb
          · exact hinv v hv2 hvr
        · show taskId ∉ (taskId :: st.recStack).erase taskId
          rw [herase]
          exact hnrs
      | some task =>
        rw [htm] at hok
        dsimp only at hok
        cases hdeps : task.options.deps with
        | none =>
          rw [hdeps] at hok
          simp only [Except.ok.injEq, Prod.mk.injEq, true_and] at hok
          subst hok
          have herase : (taskId :: st.recStack).erase taskId = st.recStack :=
            List.erase_cons_head _ _
          have hnoedge : ∀ x, ¬ edgeP tm taskId x := by
            intro x hx
            unfold edgeP depsOf at hx
            simp only [htm, hdeps] at hx
            simp at hx
          refine ⟨?_, List.mem_cons_self _ _, ?_⟩
          · intro v hvm hvr
            rw [show (DfsState.mk (taskId :: st.visited)
              ((taskId :: st.recStack).erase taskId)).recStack =
              st.recStack from by rw [herase]] at hvr
            rcases List.mem_cons.mp hvm with he | hv2
            · subst he
              constructor
              · intro d hd
                unfold depsOf at hd
                simp only [htm, hdeps] at hd
                simp at hd
              · intro c hrt htg
                rcases Relation.ReflTransGen.cases_head hrt with he2 | ⟨b, hb, _⟩
                · subst he2
                  rcases transGen_head_decomp htg with ⟨x, hx, _⟩
                  exact hnoedge x hx
                · exact hnoedge b hb
            · exact hinv v hv2 hvr
          · show taskId ∉ (taskId :: st.recStack).erase taskId
            rw [herase]
            exact hnrs
        | some ds =>
          rw [hdeps] at hok
          dsimp only at hok
          have hsub1 : ∀ x ∈ ds, x ∈ task.options.deps.getD [] := by
            intro x hx
            rw [hdeps]
            exact hx
          have hwf1 : dfsWF ⟨taskId :: st.visited, taskId :: st.recStack⟩ := by
            intro x hx
            rcases List.mem_cons.mp hx with he | hx2
            · subst he
              exact List.mem_cons_self _ _
            · exact List.mem_cons_of_mem _ (hwf x hx2)
          have hinv1 : dfsInvB tm ⟨taskId :: st.visited, taskId :: st.recStack⟩ := by
            intro v hvm hvr
            rcases List.mem_cons.mp hvm with he | hv2
            · subst he
              exact absurd (List.mem_cons_self _ _) hvr
            · exact hinv v hv2 (fun hm => hvr (List.mem_cons_of_mem _ hm))
          cases hres : depsLoopF tm (hasCycle tm f) taskId ds
              ⟨taskId :: st.visited, taskId :: st.recStack⟩ with
          | error e2 =>
            rw [hres] at hok
            exact absurd hok (by simp)
          | ok p =>
            obtain ⟨bb, stm⟩ := p
            cases bb with
            | true =>
              rw [hres] at hok
              exact absurd hok (by simp)
            | false =>
              rw [hres] at hok
              simp only [Except.ok.injEq, Prod.mk.injEq, true_and] at hok
              subst hok
              have hC := depsLoopF_complete tm f ihf taskId task htm ds
                ⟨taskId :: st.visited, taskId :: st.recStack⟩ hsub1 hwf1 hinv1 stm hres
              have hbase := (depsLoopF_basic tm [] f (hasCycle_basic tm [] f)
                taskId task htm ds
                ⟨taskId :: st.visited, taskId :: st.recStack⟩ hsub1).1 false stm hres
              have hstmr : stm.recStack = taskId :: st.recStack := (hbase.2 hwf1).2 rfl
              have herase : stm.recStack.erase taskId = st.recStack := by
                rw [hstmr]
                exact List.erase_cons_head _ _
              have hedgechar : ∀ x, edgeP tm taskId x → x ∈ ds := by
                intro x hx
                unfold edgeP depsOf at hx
                simp only [htm, hdeps] at hx
                simpa using hx
              have hblackds : ∀ d ∈ ds, blackP tm d := by
                intro d hd
                exact hC.1 d (hC.2 d hd).1 (hC.2 d hd).2.1
              refine ⟨?_, hbase.1 taskId (List.mem_cons_self _ _), ?_⟩
              · intro v hvm hvr
                rw [show (DfsState.mk stm.visited (stm.recStack.erase taskId)).recStack =
                  st.recStack from by rw [herase]] at hvr
                by_cases hvt : v = taskId
                · subst hvt
                  constructor
                  · intro d hd
                    unfold depsOf at hd
                    simp only [htm, hdeps, Option.getD_some] at hd
                    exact (hC.2 d hd).2.2
                  · intro c hrt htg
                    rcases Relation.ReflTransGen.cases_head hrt with he2 | ⟨b, hb, hbc⟩
                    · subst he2
                      rcases transGen_head_decomp htg with ⟨x, hx, hxr⟩
                      exact (hblackds x (hedgechar x hx)).2 v hxr htg
                    · exact (hblackds b (hedgechar b hb)).2 c hbc htg
                · have hvr2 : v ∉ stm.recStack := by
                    rw [hstmr]
                    intro hm
                    rcases List.mem_cons.mp hm with he | hm2
                    · exact hvt he
                    · exact hvr hm2
                  exact hC.1 v hvm hvr2
              · show taskId ∉ stm.recStack.erase taskId
                rw [herase]
                exact hnrs

/-! The top-level validation loop. -/

theorem detectGo_ok (tm : String → Option Task) (fuel : Nat) :
    ∀ (l : List Task) (st st2 : DfsState),
      dfsWF st → st.recStack = [] → dfsInvB tm st →
      detectGo tm fuel l st = .ok st2 →
      dfsInvB tm st2 ∧ st2.recStack = [] ∧ (∀ x ∈ st.visited, x ∈ st2.visited) ∧
        ∀ t ∈ l, t.id ∈ st2.visited := by
  intro l
  induction l with
  | nil =>
    intro st st2 hwf hrs hinv h
    have h2 : (Except.ok st : Except FlowError DfsState) = .ok st2 := h
    simp only [Except.ok.injEq] at h2
    subst h2
    exact ⟨hinv, hrs, fun x hx => hx, fun t ht => absurd ht (List.not_mem_nil _)⟩
  | cons t rest ih =>
    intro st st2 hwf hrs hinv h
    unfold detectGo at h
    cases hres : hasCycle tm fuel t.id st with
    | error e =>
      rw [hres] at h
      exact absurd h (by simp)
    | ok p =>
      obtain ⟨bb, st1⟩ := p
      cases bb with
      | true =>
        rw [hres] at h
        exact absurd h (by simp)
      | false =>
        rw [hres] at h
        dsimp only at h
        have hnrs : t.id ∉ st.recStack := by
          rw [hrs]
          exact List.not_mem_nil _
        have hC := hasCycle_complete tm fuel t.id st hwf hnrs hinv st1 hres
        have hbase := (hasCycle_basic tm [] fuel t.id st).1 false st1 hres
        have hrs1 : st1.recStack = [] := by
          rw [((hbase.2 hwf).2 hnrs rfl).1, hrs]
        have hwf1 : dfsWF st1 := (hbase.2 hwf).1
        have hrest := ih st1 st2 hwf1 hrs1 hC.1 h
        refine ⟨hrest.1, hrest.2.1, fun x hx => hrest.2.2.1 x (hbase.1 x hx), ?_⟩
        intro u hu
        rcases List.mem_cons.mp hu with he | hu2
        · subst he
          exact hrest.2.2.1 u.id hC.2.1
        · exact hrest.2.2.2 u hu2

theorem detectGo_err (tm : String → Option Task) (K : List String)
    (hK : ∀ x, (tm x).isSome = true → x ∈ K) (fuel : Nat) (hfuel : K.length < fuel) :
    ∀ (l : List Task) (st : DfsState) (e : FlowError),
      dfsWF st → st.recStack = [] → dfsInvB tm st →
      detectGo tm fuel l st = .error e →
      errUnknown tm e ∨ ∃ t ∈ l, e = .circular t.id ∧
        ∃ c, Relation.TransGen (edgeP tm) c c ∧
          Relation.ReflTransGen (edgeP tm) t.id c := by
  intro l
  induction l with
  | nil =>
    intro st e hwf hrs hinv h
    exact absurd h (by simp [detectGo])
  | cons t rest ih =>
    intro st e hwf hrs hinv h
    unfold detectGo at h
    cases hres : hasCycle tm fuel t.id st with
    | error e2 =>
      rw [hres] at h
      simp only [Except.error.injEq] at h
      subst h
      rcases (hasCycle_basic tm K fuel t.id st).2 e2 hres with ⟨hfe, hle⟩ | hunk
      · exfalso
        have h1 := hle hK
        have h2 := freeCount_le K st.visited
        omega
      · exact Or.inl hunk
    | ok p =>
      obtain ⟨bb, st1⟩ := p
      cases bb with
      | true =>
        rw [hres] at h
        simp only [Except.error.injEq] at h
        subst h
        have hchain : stackChain tm (t.id :: st.recStack) := by
          rw [hrs]
          trivial
        rcases hasCycle_sound tm fuel t.id st hwf hchain st1 hres with ⟨c, hc1, hc2⟩
        refine Or.inr ⟨t, List.mem_cons_self _ _, rfl, c, hc1, ?_⟩
        rw [hrs] at hc2
        exact hc2
      | false =>
        rw [hres] at h
        dsimp only at h
        have hnrs : t.id ∉ st.recStack := by
          rw [hrs]
          exact List.not_mem_nil _
        have hC := hasCycle_complete tm fuel t.id st hwf hnrs hinv st1 hres
        have hbase := (hasCycle_basic tm [] fuel t.id st).1 false st1 hres
        have hrs1 : st1.recStack = [] := by
          rw [((hbase.2 hwf).2 hnrs rfl).1, hrs]
        have hwf1 : dfsWF st1 := (hbase.2 hwf).1
        rcases ih st1 e hwf1 hrs1 hC.1 h with hu | ⟨u, hmem, he, hc⟩
        · exact Or.inl hu
        · exact Or.inr ⟨u, List.mem_cons_of_mem _ hmem, he, hc⟩

/-! Correctness of detectCircularDependencys. -/

theorem errUnknown_not_resolvable (ts : List Task) (e : FlowError)
    (hunk : errUnknown (buildMap ts) e) : ¬ Resolvable ts := by
  intro hres
  cases e with
  | unknownDep d tid =>
    obtain ⟨hd, task, htask, hdin⟩ := hunk
    rcases buildMap_mem ts tid task htask with ⟨hmem, hid⟩
    have hdep : d ∈ depsOf (buildMap ts) task.id := by
      unfold depsOf
      rw [hid, htask]
      exact hdin
    have := hres task hmem d hdep
    rw [hd] at this
    simp at this
  | circular tid => exact hunk
  | fuelExhausted => exact hunk

theorem detect_ok_of_valid (ts : List Task)
    (hres : Resolvable ts) (hacy : Acyclic ts) :
    detectCircularDependencys ts = .ok () := by
  unfold detectCircularDependencys
  cases hgo : detectGo (buildMap ts) (ts.length + 1) ts ⟨[], []⟩ with
  | ok st => rfl
  | error e =>
    exfalso
    have hKlen : (ts.map Task.id).length < ts.length + 1 := by simp
    have herr := detectGo_err (buildMap ts) (ts.map Task.id) (buildMap_support ts)
      (ts.length + 1) hKlen ts ⟨[], []⟩ e (fun x hx => absurd hx (List.not_mem_nil _))
      rfl (fun v hv => absurd hv (List.not_mem_nil _)) hgo
    rcases herr with hunk | ⟨t, _, _, c, htg, _⟩
    · exact errUnknown_not_resolvable ts e hunk hres
    · exact hacy c htg

theorem detect_circular_of_cycle (ts : List Task) (hres : Resolvable ts)
    (hcyc : ∃ a, Relation.TransGen (edgeP (buildMap ts)) a a) :
    ∃ tid, detectCircularDependencys ts = .error (.circular tid) ∧
      tid ∈ ts.map Task.id ∧
      ∃ c, Relation.TransGen (edgeP (buildMap ts)) c c ∧
        Relation.ReflTransGen (edgeP (buildMap ts)) tid c := by
  unfold detectCircularDependencys
  cases hgo : detectGo (buildMap ts) (ts.length + 1) ts ⟨[], []⟩ with
  | ok st =>
    exfalso
    have hok := detectGo_ok (buildMap ts) (ts.length + 1) ts ⟨[], []⟩ st
      (fun x hx => absurd hx (List.not_mem_nil _)) rfl
      (fun v hv => absurd hv (List.not_mem_nil _)) hgo
    rcases hcyc with ⟨a, htg⟩
    rcases transGen_head_decomp htg with ⟨b, hb, _⟩
    unfold edgeP depsOf at hb
    cases hba : buildMap ts a with
    | none =>
      rw [hba] at hb
      simp at hb
    | some task =>
      rcases buildMap_mem ts a task hba with ⟨hmem, hid⟩
      have hvis : task.id ∈ st.visited := hok.2.2.2 task hmem
      have hblack := hok.1 task.id hvis (by rw [hok.2.1]; exact List.not_mem_nil _)
      rw [hid] at hblack
      exact hblack.2 a Relation.ReflTransGen.refl htg
  | error e =>
    have hKlen : (ts.map Task.id).length < ts.length + 1 := by simp
    have herr := detectGo_err (buildMap ts) (ts.map Task.id) (buildMap_support ts)
      (ts.length + 1) hKlen ts ⟨[], []⟩ e (fun x hx => absurd hx (List.not_mem_nil _))
      rfl (fun v hv => absurd hv (List.not_mem_nil _)) hgo
    rcases herr with hunk | ⟨t, hmem, he, c, hc1, hc2⟩
    · exact absurd hres (errUnknown_not_resolvable ts e hunk)
    · subst he
      exact ⟨t.id, rfl, List.mem_map.mpr ⟨t, hmem, rfl⟩, c, hc1, hc2⟩

theorem detect_unknown_of_unresolvable (ts : List Task)
    (hnres : ¬ Resolvable ts) (hacy : Acyclic ts) :
    ∃ d tid, detectCircularDependencys ts = .error (.unknownDep d tid) ∧
      buildMap ts d = none ∧
      ∃ task, buildMap ts tid = some task ∧ d ∈ task.options.deps.getD [] := by
  unfold detectCircularDependencys
  cases hgo : detectGo (buildMap ts) (ts.length + 1) ts ⟨[], []⟩ with
  | ok st =>
    exfalso
    apply hnres
    have hok := detectGo_ok (buildMap ts) (ts.length + 1) ts ⟨[], []⟩ st
      (fun x hx => absurd hx (List.not_mem_nil _)) rfl
      (fun v hv => absurd hv (List.not_mem_nil _)) hgo
    intro t hmem d hd
    have hvis : t.id ∈ st.visited := hok.2.2.2 t hmem
    have hblack := hok.1 t.id hvis (by rw [hok.2.1]; exact List.not_mem_nil _)
    exact hblack.1 d hd
  | error e =>
    have hKlen : (ts.map Task.id).length < ts.length + 1 := by simp
    have herr := detectGo_err (buildMap ts) (ts.map Task.id) (buildMap_support ts)
      (ts.length + 1) hKlen ts ⟨[], []⟩ e (fun x hx => absurd hx (List.not_mem_nil _))
      rfl (fun v hv => absurd hv (List.not_mem_nil _)) hgo
    rcases herr with hunk | ⟨t, hmem, he, c, hc1, hc2⟩
    · cases e with
      | unknownDep d tid =>
        obtain ⟨hd, task, htask, hdin⟩ := hunk
        exact ⟨d, tid, rfl, hd, task, htask, hdin⟩
      | circular tid => exact hunk.elim
      | fuelExhausted => exact hunk.elim
    · exfalso
      exact hacy c hc1

/-! Claim C8. -/

/-- C8: a FlowManager constructed without options uses timeout 30000
and debug false; a provided option overrides its default (the spread
of lines 39-42 copies present fields over the defaults) while an
absent option keeps the default, captured by getD. -/
theorem C8_options_defaults :
    (∀ id, (mkFlowManager id none).options = ⟨30000, false⟩) ∧
    (∀ id o, (mkFlowManager id (some o)).options.timeout = o.timeout.getD 30000 ∧
             (mkFlowManager id (some o)).options.debug = o.debug.getD false) := by
  exact ⟨fun _ => rfl, fun _ _ => ⟨rfl, rfl⟩⟩

/-! Claim C10. -/

/-- C10: addTask with a Task instance, or with a string id plus task
options, appends exactly one task and returns the manager otherwise
unchanged (the JS method returns this for chaining); a string without
task options throws and the task list is part of no returned
manager. -/
theorem C10_addTask_behavior :
    (∀ fm t opts, addTask fm (.inl t) opts =
        .ok ⟨fm.id, fm.taskList ++ [t], fm.options⟩) ∧
    (∀ fm s opts, addTask fm (.inr s) (some opts) =
        .ok ⟨fm.id, fm.taskList ++ [Task.mk s opts], fm.options⟩) ∧
    (∀ fm s, addTask fm (.inr s) none =
        .error "Invalid task or missing task options") := by
  refine ⟨fun fm t opts => ?_, fun _ _ _ => rfl, fun _ _ => rfl⟩
  cases opts <;> rfl

/-! Claim C7. -/

/-- C7 counterexample: registering a second task named x on a flow
that already holds a task named x succeeds silently, and both tasks
are kept in the list; nothing rejects the duplicate. -/
theorem C7_counterexample :
    (addTask (mkFlowManager "Main" none) (.inr "x") (some sampleOpts)).bind
        (fun fm => addTask fm (.inr "x") (some sampleOpts)) =
      .ok ⟨"Main", [Task.mk "x" sampleOpts, Task.mk "x" sampleOpts], ⟨30000, false⟩⟩ := rfl

/-- C7 amended: registering a task whose name is already registered on
the flow is silently accepted, appending a second task with that
name. -/
theorem C7_amended_duplicate_accepted (fm : FlowManager) (s : String) (opts : TaskOptions)
    (hdup : ∃ t ∈ fm.taskList, t.id = s) :
    addTask fm (.inr s) (some opts) =
      .ok ⟨fm.id, fm.taskList ++ [Task.mk s opts], fm.options⟩ ∧
    s ∈ fm.taskList.map Task.id := by
  rcases hdup with ⟨t, hm, hid⟩
  exact ⟨rfl, List.mem_map.mpr ⟨t, hm, hid⟩⟩

/-- C7 witness: the amended statement applied to a flow already
holding a task named x. -/
theorem C7_witness :
    addTask ⟨"Main", [Task.mk "x" sampleOpts], ⟨30000, false⟩⟩ (.inr "x") (some sampleOpts) =
      .ok ⟨"Main", [Task.mk "x" sampleOpts, Task.mk "x" sampleOpts], ⟨30000, false⟩⟩ ∧
    "x" ∈ [Task.mk "x" sampleOpts].map Task.id :=
  C7_amended_duplicate_accepted ⟨"Main", [Task.mk "x" sampleOpts], ⟨30000, false⟩⟩ "x"
    sampleOpts ⟨Task.mk "x" sampleOpts, List.mem_singleton.mpr rfl, rfl⟩

/-! Claim C6. -/

/-- C6 counterexample: after the run writes and freezes the entry of
task init, a wholesale replacement of that entry by another executor
(context.init = otherValue) succeeds and changes the stored value,
because Object.freeze was applied to the entry value and not to the
context object; the claim that any mutation attempt including
replacement has no effect is false. -/
theorem C6_counterexample :
    alLookup (writeTaskResult [] "init" ⟨[("value", 1)], false⟩) "init" =
      some ⟨[("value", 1)], true⟩ ∧
    alLookup
        (replaceEntry (writeTaskResult [] "init" ⟨[("value", 1)], false⟩)
          "init" ⟨[("value", 99)], false⟩) "init" =
      some ⟨[("value", 99)], false⟩ := ⟨rfl, rfl⟩

/-- C6 amended: the run freezes each written entry, and mutating a
property of a frozen entry from any executor is rejected at write time
(a strict-mode TypeError) leaving the stored value unchanged; however
wholesale replacement of an entry through plain assignment on the
context object does replace the stored value. -/
theorem C6_amended_freeze :
    (∀ ctx taskId o, alLookup (writeTaskResult ctx taskId o) taskId =
        some ⟨o.fields, true⟩) ∧
    (∀ ctx k f v o, alLookup ctx k = some o → o.frozen = true →
        setField ctx k f v = .error "TypeError: cannot assign to read-only property") ∧
    (∀ ctx k o2, alLookup (replaceEntry ctx k o2) k = some o2) := by
  refine ⟨fun ctx taskId o => alLookup_alSet_self ctx taskId _,
          fun ctx k f v o hl hf => ?_,
          fun ctx k o2 => alLookup_alSet_self ctx k o2⟩
  unfold setField
  rw [hl]
  simp [hf]

/-- C6 witness: the amended statement applied to the frozen entry
written for task init. -/
theorem C6_witness :
    setField (writeTaskResult [] "init" ⟨[("value", 1)], false⟩) "init" "value" 11 =
      .error "TypeError: cannot assign to read-only property" :=
  C6_amended_freeze.2.1 (writeTaskResult [] "init" ⟨[("value", 1)], false⟩)
    "init" "value" 11 ⟨[("value", 1)], true⟩ rfl rfl

/-! Counterexamples for claims C1 to C5. -/

/-- C1 counterexample: in the flow ceSlowDep the dependency graph is
acyclic and fully resolvable, yet the executor of b is invoked before
the context entry of its dependency a is written: the dependency wait
of lines 96-104 awaits an always-empty array, so nothing gates the
invocation. -/
theorem C1_counterexample :
    Resolvable ceSlowDep.taskList ∧ Acyclic ceSlowDep.taskList ∧
    ¬ gatedOnDeps ceSlowDep := by
  refine ⟨by decide, ?_, by decide⟩
  exact acyclic_of_rank _ (fun s => if s = "b" then 1 else 0) (by decide)

/-- C2 counterexample: in the flow ceFailDep task A rejects and B
depends on A, yet the executor of B is invoked (nothing is skipped),
and the aggregate error lists only the execution failure of A with no
entry for B; the claim that B is listed as skipped and never invoked
is false.  C, the independent sibling, does complete with its output
in the context. -/
theorem C2_counterexample :
    run ceFailDep [] = .error (.flowFailed [.failed "A" "boom"]) ∧
    Event.invoke "B" ∈ runTrace ceFailDep ∧
    alLookup (finalContext [] ceFailDep.taskList) "C" = some (some 2) := by
  exact ⟨by decide, by decide, by decide⟩

/-- C3 counterexample: in the flow ceSingleFail the executor of A
rejects, and line 125 still writes context[A] = response with response
undefined: the context does have a key for the failed task, holding
undefined; the claim that no context entry is written is false. -/
theorem C3_counterexample :
    run ceSingleFail [] = .error (.flowFailed [.failed "A" "x"]) ∧
    alLookup (finalContext [] ceSingleFail.taskList) "A" = some none := by
  exact ⟨by decide, by decide⟩

/-- C4 counterexample: in the flow ceLateDepTimeout task T exceeds the
timeout, so its signal resolves as a timeout rejection, yet run
returns the context successfully: because T declares a dependency on
the later-registered U, line 101 overwrote taskProm[T] with undefined
and the rejection is invisible to the settled check of line 134. -/
theorem C4_counterexample :
    outcomeOf ceLateDepTimeout.options.timeout (Task.mk "T" ⟨some ["U"], ⟨50, .ok 1⟩⟩) =
      .rejected (.timedOut "T") ∧
    run ceLateDepTimeout [] = .ok [("T", some 1), ("U", some 2)] := by
  exact ⟨by decide, by decide⟩

/-! Counting executor invocations in a trace. -/

theorem count_invoke_map (l : List Task) (s : String) :
    ((l.map fun t => Event.invoke t.id).count (Event.invoke s)) =
      (l.map Task.id).count s := by
  induction l with
  | nil => rfl
  | cons t rest ih =>
    simp only [List.map_cons, List.count_cons, ih]
    congr 1
    by_cases h : t.id = s
    · simp [h]
    · simp [h]

theorem count_invoke_writes (l : List Task) (s : String) :
    ((l.map fun t => Event.write t.id (entryOf t)).count (Event.invoke s)) = 0 := by
  induction l with
  | nil => rfl
  | cons t rest ih =>
    simp only [List.map_cons, List.count_cons, ih]
    simp

/-! Claim C1, amended. -/

/-- C1 amended: for every flow whose dependency graph is acyclic and
fully resolvable, validation passes and running the flow invokes every
task executor exactly once (the trace contains one invocation per
occurrence of the task name in the list); however the executors are
NOT gated on the dependencies: the counterexample above shows an
executor invoked before a dependency entry is written, because the
await of line 104 waits on an always-empty array. -/
theorem C1_amended_invoked_exactly_once (fm : FlowManager)
    (hres : Resolvable fm.taskList) (hacy : Acyclic fm.taskList) :
    ∀ s, (runTrace fm).count (Event.invoke s) = (fm.taskList.map Task.id).count s := by
  intro s
  unfold runTrace
  rw [detect_ok_of_valid fm.taskList hres hacy]
  rw [List.count_append, List.count_append, count_invoke_writes]
  have hfil : fm.taskList.filter (fun t => t.options.deps.isSome) =
      fm.taskList.filter (fun t => !(t.options.deps.isNone)) := by
    apply List.filter_congr
    intro t _
    cases t.options.deps <;> rfl
  rw [hfil, ← List.count_append, ← List.map_append]
  have hperm : (fm.taskList.filter (fun t => t.options.deps.isNone) ++
      fm.taskList.filter (fun t => !(t.options.deps.isNone))).Perm fm.taskList :=
    List.filter_append_perm _ _
  rw [(hperm.map (fun t => Event.invoke t.id)).count_eq (Event.invoke s)]
  rw [count_invoke_map]
  exact Nat.add_zero _

/-- C1 witness: the amended statement applied to the two-task flow
wfIndep without dependencies. -/
theorem C1_witness :
    Resolvable wfIndep.taskList ∧
    (runTrace wfIndep).count (Event.invoke "a") =
      (wfIndep.taskList.map Task.id).count "a" :=
  ⟨by decide, C1_amended_invoked_exactly_once wfIndep (by decide)
    (acyclic_of_rank _ (fun _ => 0) (by decide)) "a"⟩

/-! Claim C5, amended. -/

/-- C5 amended: validation runs synchronously before dispatch.  When
some task declares an unregistered dependency AND the dependency
relation is acyclic, run fails with an error naming a missing
dependency together with the task declaring it; when the relation has
a cycle AND every declared dependency is registered, run fails with a
circular-dependency error naming a registered task from which a cycle
is reachable (not necessarily a task on the cycle); in every
validation failure no task executor is ever invoked.  (The two
conditions need the extra conjuncts: the counterexample above shows a
flow with both an unregistered dependency and a cycle failing with the
circular error, not with an error naming the missing dependency.) -/
theorem C5_amended_validation :
    (∀ ts : List Task, ¬ Resolvable ts → Acyclic ts →
      ∃ d tid, detectCircularDependencys ts = .error (.unknownDep d tid) ∧
        buildMap ts d = none ∧
        ∃ task, buildMap ts tid = some task ∧ d ∈ task.options.deps.getD []) ∧
    (∀ ts : List Task, (∃ a, Relation.TransGen (edgeP (buildMap ts)) a a) →
      Resolvable ts →
      ∃ tid, detectCircularDependencys ts = .error (.circular tid) ∧
        tid ∈ ts.map Task.id ∧
        ∃ c, Relation.TransGen (edgeP (buildMap ts)) c c ∧
          Relation.ReflTransGen (edgeP (buildMap ts)) tid c) ∧
    (∀ (fm : FlowManager) (init : Ctx) (e : FlowError),
      detectCircularDependencys fm.taskList = .error e →
      run fm init = .error (.validation e) ∧ runTrace fm = []) := by
  refine ⟨detect_unknown_of_unresolvable,
    fun ts hcyc hres => detect_circular_of_cycle ts hres hcyc,
    fun fm init e h => ⟨?_, ?_⟩⟩
  · unfold run
    rw [h]
  · unfold runTrace
    rw [h]

/-- C5 witness: the amended statement applied to a flow with an
unregistered dependency, to a flow with a two-cycle, and to the
validation-failure path of run. -/
theorem C5_witness :
    (∃ d tid, detectCircularDependencys ceUnknownOnly = .error (.unknownDep d tid) ∧
      buildMap ceUnknownOnly d = none ∧
      ∃ task, buildMap ceUnknownOnly tid = some task ∧
        d ∈ task.options.deps.getD []) ∧
    (∃ tid, detectCircularDependencys ceCyclePair = .error (.circular tid) ∧
      tid ∈ ceCyclePair.map Task.id ∧
      ∃ c, Relation.TransGen (edgeP (buildMap ceCyclePair)) c c ∧
        Relation.ReflTransGen (edgeP (buildMap ceCyclePair)) tid c) ∧
    (run ceCycleFm [] = .error (.validation (.circular "x")) ∧ runTrace ceCycleFm = []) := by
  refine ⟨C5_amended_validation.1 ceUnknownOnly (by decide)
      (acyclic_of_rank _ (fun s => if s = "a" then 1 else 0) (by decide)),
    C5_amended_validation.2.1 ceCyclePair ⟨"x", ?_⟩ (by decide),
    C5_amended_validation.2.2 ceCycleFm [] (.circular "x") (by decide)⟩
  have exy : edgeP (buildMap ceCyclePair) "x" "y" := by decide
  have eyx : edgeP (buildMap ceCyclePair) "y" "x" := by decide
  exact Relation.TransGen.tail (Relation.TransGen.single exy) eyx

/-! Claim C3, amended. -/

/-- C3 amended: for every task whose executor fails or times out, the
completion signal resolves to failure carrying the reason; however,
for a failed executor a context entry IS still written under the task
name, holding undefined (line 125 runs with the never-assigned
response variable after the catch block), so the context does have a
key for the failed task. -/
theorem C3_amended_signal_and_entry (fm : FlowManager) (t : Task) (msg : String)
    (hmem : t ∈ fm.taskList) (hnd : (fm.taskList.map Task.id).Nodup) :
    (t.options.executor.result = .error msg →
      alLookup (finalContext [] fm.taskList) t.id = some none ∧
      (t.options.executor.duration ≤ fm.options.timeout →
        outcomeOf fm.options.timeout t = .rejected (.failed t.id msg))) ∧
    (fm.options.timeout < t.options.executor.duration →
      outcomeOf fm.options.timeout t = .rejected (.timedOut t.id)) := by
  constructor
  · intro hres
    constructor
    · rw [finalContext_lookup fm.taskList [] t hnd hmem]
      simp [entryOf, hres]
    · intro hdur
      unfold outcomeOf
      rw [if_neg (by omega), hres]
  · intro hdur
    unfold outcomeOf
    rw [if_pos hdur]

/-- C3 witness: the amended statement applied to the single failing
task of ceSingleFail. -/
theorem C3_witness :
    alLookup (finalContext [] ceSingleFail.taskList) "A" = some none ∧
    outcomeOf ceSingleFail.options.timeout (Task.mk "A" ⟨none, ⟨0, .error "x"⟩⟩) =
      .rejected (.failed "A" "x") := by
  have h := C3_amended_signal_and_entry ceSingleFail (Task.mk "A" ⟨none, ⟨0, .error "x"⟩⟩)
    "x" (by decide) (by decide)
  exact ⟨(h.1 rfl).1, (h.1 rfl).2 (by decide)⟩

/-! Claim C4, amended. -/

/-- C4 amended: for every task whose executor exceeds the configured
timeout, the signal resolves as a timeout failure, and run fails with
an aggregate error mentioning that task PROVIDED the promise-map entry
of the task still holds its promise when run settles (true in
particular when the task declares no dependency on a later-registered
task); a timed-out task whose entry was overwritten with undefined
during dispatch escapes the settled check, so the guarantee does not
hold for every registration order. -/
theorem C4_amended_timeout_aggregate (fm : FlowManager) (init : Ctx) (i : Nat) (t : Task)
    (hdet : detectCircularDependencys fm.taskList = .ok ())
    (ht : fm.taskList[i]? = some t)
    (hpm : alLookup (dispatch fm.taskList) t.id = some (some i))
    (hdur : fm.options.timeout < t.options.executor.duration) :
    outcomeOf fm.options.timeout t = .rejected (.timedOut t.id) ∧
    ∃ rs, run fm init = .error (.flowFailed rs) ∧ .timedOut t.id ∈ rs := by
  have hout : outcomeOf fm.options.timeout t = .rejected (.timedOut t.id) := by
    unfold outcomeOf
    rw [if_pos hdur]
  exact ⟨hout, run_error_of_rejected fm init t.id i t _ hdet (alLookup_mem _ _ _ hpm) ht hout⟩

/-- C4 witness: the amended statement applied to the one-task flow
wfSlowSolo whose task times out and keeps its promise entry. -/
theorem C4_witness :
    outcomeOf wfSlowSolo.options.timeout (Task.mk "S" ⟨none, ⟨50, .ok 1⟩⟩) =
      .rejected (.timedOut "S") ∧
    ∃ rs, run wfSlowSolo [] = .error (.flowFailed rs) ∧ .timedOut "S" ∈ rs :=
  C4_amended_timeout_aggregate wfSlowSolo [] 0 (Task.mk "S" ⟨none, ⟨50, .ok 1⟩⟩)
    (by decide) (by decide) (by decide) (by decide)

/-! Claim C2, amended. -/

/-- C2 amended: when the executor of task a fails within the timeout
and its promise entry survives dispatch, run fails with an aggregate
error listing the execution failure of a; but a task b that declares a
dependency on a is NOT skipped: its executor is invoked anyway (the
dependency wait is a no-op) and, succeeding within the timeout, b
appears in no entry of the aggregate error; an independent task c with
a successful synchronous executor still completes and its output is
present in the context. -/
theorem C2_amended_failure_propagation (fm : FlowManager) (init : Ctx)
    (i : Nat) (a b c : Task) (msg : String) (vb vc : Nat)
    (hdet : detectCircularDependencys fm.taskList = .ok ())
    (hnd : (fm.taskList.map Task.id).Nodup)
    (ha : fm.taskList[i]? = some a)
    (hpm : alLookup (dispatch fm.taskList) a.id = some (some i))
    (hares : a.options.executor.result = .error msg)
    (hadur : a.options.executor.duration ≤ fm.options.timeout)
    (hb : b ∈ fm.taskList) (hbdep : a.id ∈ b.options.deps.getD [])
    (hbres : b.options.executor.result = .ok vb)
    (hbdur : b.options.executor.duration ≤ fm.options.timeout)
    (hc : c ∈ fm.taskList) (hcdeps : c.options.deps = none)
    (hcres : c.options.executor.result = .ok vc) :
    ∃ rs, run fm init = .error (.flowFailed rs) ∧ Reason.failed a.id msg ∈ rs ∧
      (∀ r ∈ rs, reasonTask r ≠ b.id) ∧
      Event.invoke b.id ∈ runTrace fm ∧
      Event.invoke c.id ∈ runTrace fm ∧
      alLookup (finalContext [] fm.taskList) c.id = some (some vc) := by
  have houta : outcomeOf fm.options.timeout a = .rejected (.failed a.id msg) := by
    unfold outcomeOf
    rw [if_neg (by omega), hares]
  rcases run_error_of_rejected fm init a.id i a _ hdet (alLookup_mem _ _ _ hpm) ha houta
    with ⟨rs, hrun, hmem⟩
  refine ⟨rs, hrun, hmem, ?_, ?_, ?_, ?_⟩
  · intro r hr hrb
    rcases run_reasons_mem fm init rs r hdet hrun hr with ⟨k, j, t, hmemPm, htj, houtr⟩
    have htid : reasonTask r = t.id := by
      rcases outcomeOf_rejected_id _ _ _ houtr with ⟨m, hm⟩ | hm <;> rw [hm] <;> rfl
    have htb : t = b :=
      mem_id_unique fm.taskList hnd t b (List.getElem?_mem htj) hb (by rw [← htid, hrb])
    subst htb
    unfold outcomeOf at houtr
    rw [if_neg (by omega), hbres] at houtr
    simp at houtr
  · unfold runTrace
    rw [hdet]
    have hbdeps : b.options.deps.isSome = true := by
      cases hd : b.options.deps with
      | none => rw [hd] at hbdep; simp at hbdep
      | some ds => rfl
    refine List.mem_append_left _ (List.mem_append_right _ ?_)
    exact List.mem_map.mpr ⟨b, List.mem_filter.mpr ⟨hb, hbdeps⟩, rfl⟩
  · unfold runTrace
    rw [hdet]
    refine List.mem_append_left _ (List.mem_append_left _ ?_)
    exact List.mem_map.mpr ⟨c, List.mem_filter.mpr ⟨hc, by rw [hcdeps]; rfl⟩, rfl⟩
  · rw [finalContext_lookup fm.taskList [] c hnd hc]
    simp [entryOf, hcres]

/-- C2 witness: the amended statement applied to the flow ceFailDep
(A fails, B depends on A, C is independent). -/
theorem C2_witness :
    ∃ rs, run ceFailDep [] = .error (.flowFailed rs) ∧ Reason.failed "A" "boom" ∈ rs ∧
      (∀ r ∈ rs, reasonTask r ≠ "B") ∧
      Event.invoke "B" ∈ runTrace ceFailDep ∧
      Event.invoke "C" ∈ runTrace ceFailDep ∧
      alLookup (finalContext [] ceFailDep.taskList) "C" = some (some 2) :=
  C2_amended_failure_propagation ceFailDep [] 0
    (Task.mk "A" ⟨none, ⟨0, .error "boom"⟩⟩)
    (Task.mk "B" ⟨some ["A"], ⟨0, .ok 1⟩⟩)
    (Task.mk "C" ⟨none, ⟨0, .ok 2⟩⟩)
    "boom" 1 2
    (by decide) (by decide) (by decide) (by decide) rfl (by decide)
    (by decide) (by decide) rfl (by decide) (by decide) rfl rfl

/-! Claim C9. -/

/-- During dispatch, a task declaring a dependency on a task that is
only registered later has its own promise-map entry overwritten with
undefined on line 101. -/
theorem dispatch_overwritten (l1 l2 : List Task) (tf : Task) (d : String)
    (hnd : ((l1 ++ tf :: l2).map Task.id).Nodup)
    (hdep : d ∈ tf.options.deps.getD [])
    (hlater : d ∈ l2.map Task.id) :
    alLookup (dispatch (l1 ++ tf :: l2)) tf.id = some none := by
  rw [List.map_append, List.nodup_append] at hnd
  obtain ⟨hnd1, hnd2, hdisj⟩ := hnd
  rw [List.map_cons, List.nodup_cons] at hnd2
  have hd1 : d ∉ l1.map Task.id := fun hm => hdisj hm (List.mem_cons_of_mem _ hlater)
  have hdne : d ≠ tf.id := fun he => hnd2.1 (he ▸ hlater)
  have hfne : tf.id ∉ l2.map Task.id := hnd2.1
  unfold dispatch
  rw [dispatchGo_append]
  have hpre : alLookup (dispatchGo l1 0 []) d = none := by
    rw [dispatchGo_lookup_not_mem _ _ _ _ hd1]
    rfl
  show alLookup (dispatchGo l2 (0 + l1.length + 1)
      (dispatchStep (0 + l1.length) tf (dispatchGo l1 0 []))) tf.id = some none
  rw [dispatchGo_lookup_not_mem _ _ _ _ hfne]
  cases hdeps : tf.options.deps with
  | none => rw [hdeps] at hdep; simp at hdep
  | some ds =>
    rw [hdeps] at hdep
    simp only [Option.getD_some] at hdep
    unfold dispatchStep
    rw [hdeps]
    rcases List.append_of_mem hdep with ⟨ds1, ds2, hds⟩
    subst hds
    show alLookup (depsScan tf.id (ds1 ++ d :: ds2)
      (alSet (dispatchGo l1 0 []) tf.id (some (0 + l1.length)))) tf.id = some none
    rw [depsScan_append, depsScan_cons]
    have hlook : alLookup (depsScan tf.id ds1
        (alSet (dispatchGo l1 0 []) tf.id (some (0 + l1.length)))) d = none := by
      rw [depsScan_lookup_ne _ _ _ _ hdne, alLookup_alSet_ne _ _ _ _ hdne, hpre]
    rw [hlook]
    rw [if_pos (show jsFalsy none = true from rfl)]
    exact depsScan_none_stable _ _ _ (alLookup_alSet_self _ _ _)

/-- C9: a task that declares a dependency on a later-registered task
has its promise-map entry overwritten with undefined during dispatch
(line 101), so the rejection of its completion signal is not part of
the settled-promise check of line 134, and when every other task
fulfils, run returns the context successfully despite that task having
failed. -/
theorem C9_promise_overwrite (fm : FlowManager) (init : Ctx) (l1 l2 : List Task)
    (tf : Task) (d : String)
    (hts : fm.taskList = l1 ++ tf :: l2)
    (hnd : (fm.taskList.map Task.id).Nodup)
    (hdet : detectCircularDependencys fm.taskList = .ok ())
    (hdep : d ∈ tf.options.deps.getD [])
    (hlater : d ∈ l2.map Task.id)
    (hfail : ∃ msg, tf.options.executor.result = .error msg)
    (hothers : ∀ u ∈ fm.taskList, u.id ≠ tf.id →
      (∃ v, u.options.executor.result = .ok v) ∧
      u.options.executor.duration ≤ fm.options.timeout) :
    alLookup (dispatch fm.taskList) tf.id = some none ∧
    isFulfilled (outcomeOf fm.options.timeout tf) = false ∧
    run fm init = .ok (finalContext init fm.taskList) := by
  have hover : alLookup (dispatch fm.taskList) tf.id = some none := by
    rw [hts]
    exact dispatch_overwritten l1 l2 tf d (by rw [← hts]; exact hnd) hdep hlater
  have hrej : isFulfilled (outcomeOf fm.options.timeout tf) = false := by
    unfold outcomeOf
    by_cases hdur : fm.options.timeout < tf.options.executor.duration
    · rw [if_pos hdur]
      rfl
    · rw [if_neg hdur]
      rcases hfail with ⟨msg, hmsg⟩
      rw [hmsg]
      rfl
  refine ⟨hover, hrej, ?_⟩
  have hall : (retList fm.options.timeout fm.taskList (dispatch fm.taskList)).all
      isFulfilled = true := by
    rw [List.all_eq_true]
    intro o ho
    rcases List.mem_map.mp ho with ⟨e, he, hfe⟩
    obtain ⟨k, v⟩ := e
    cases v with
    | none =>
      rw [← hfe]
      rfl
    | some j =>
      rcases dispatch_values fm.taskList k j he with ⟨t, htj, htid⟩
      dsimp only at hfe
      rw [htj] at hfe
      by_cases hkf : k = tf.id
      · subst hkf
        have := alMem_lookup _ _ _ (dispatch_keysND fm.taskList) he
        rw [hover] at this
        simp at this
      · have hne : t.id ≠ tf.id := by rw [htid]; exact hkf
        rcases hothers t (List.getElem?_mem htj) hne with ⟨⟨v2, hv2⟩, hdur⟩
        have hoeq : o = outcomeOf fm.options.timeout t := by rw [← hfe]
        rw [hoeq]
        unfold outcomeOf
        rw [if_neg (by omega), hv2]
        rfl
  unfold run
  rw [hdet]
  simp only []
  rw [if_pos hall]

/-- C9 witness: the claim applied to ceLateDepFail, where B fails and
depends on the later-registered A. -/
theorem C9_witness :
    alLookup (dispatch ceLateDepFail.taskList) "B" = some none ∧
    isFulfilled (outcomeOf ceLateDepFail.options.timeout
      (Task.mk "B" ⟨some ["A"], ⟨0, .error "oops"⟩⟩)) = false ∧
    run ceLateDepFail [] = .ok (finalContext [] ceLateDepFail.taskList) :=
  C9_promise_overwrite ceLateDepFail [] [] [Task.mk "A" ⟨none, ⟨0, .ok 5⟩⟩]
    (Task.mk "B" ⟨some ["A"], ⟨0, .error "oops"⟩⟩) "A"
    rfl (by decide) (by decide) (by decide) (by decide)
    ⟨"oops", rfl⟩
    (by
      intro u hu hne
      rcases List.mem_cons.mp hu with he | hu2
      · subst he
        exact absurd rfl hne
      · rcases List.mem_cons.mp hu2 with he | hu3
        · subst he
          exact ⟨⟨5, rfl⟩, by decide⟩
        · simp at hu3)

/-- C5 counterexample: the single task a of ceCycleAndUnknown declares
the unregistered dependency missing, yet validation fails with the
circular-dependency error naming a (the self-loop on a is found before
the membership check of the dependency missing runs), not with an
error naming the missing dependency; the claim that an unregistered
dependency always yields an error naming it is false. -/
theorem C5_counterexample :
    (∃ t ∈ ceCycleAndUnknown, "missing" ∈ t.options.deps.getD [] ∧
        buildMap ceCycleAndUnknown "missing" = none) ∧
    detectCircularDependencys ceCycleAndUnknown = .error (.circular "a") := by
  exact ⟨⟨⟨"a", ⟨some ["a", "missing"], ⟨0, .ok 1⟩⟩⟩, by decide, by decide, by decide⟩, by decide⟩

end Workflow
